import Mathlib

/-!
Verification development for the skill-activator repository.

The Python sources `skill_activator.py` and `index_generator.py` are shallowly
embedded below: pure fragments become Lean functions, Python `float` values
become `ℚ`, Python `dict`s keyed by strings become association lists with
dict-style update (replace in place, else append), effectful boundaries
(wall-clock time, the outbound AI request, the regular-expression engine for
user-supplied patterns) become explicit oracle parameters or idealized state
passing.  The file lists all definitions first and all theorems afterwards.
-/

namespace SkillAct

/-! ## String helpers (Python `in`, `endswith`, slicing) -/

/-- Helper for substring containment: `needle` occurs contiguously in the
second argument. -/
def subListOf (needle : List Char) : List Char → Bool
  | [] => needle.isEmpty
  | c :: rest => needle.isPrefixOf (c :: rest) || subListOf needle rest

/-- Python `needle in hay` (substring containment). -/
def strContains (hay needle : String) : Bool :=
  subListOf needle.toList hay.toList

/-- Python `w.endswith(p)`. -/
def strEndsWith (w p : String) : Bool :=
  p.toList.isSuffixOf w.toList

/-- Python `w.startswith(p)`. -/
def strStartsWith (w p : String) : Bool :=
  p.toList.isPrefixOf w.toList

/-- Python `w[:-n]` for `n ≥ 1`: drop the last `n` characters. -/
def strDropRight (w : String) (n : Nat) : String :=
  String.mk (w.toList.take (w.toList.length - n))

/-- Python `w[:n]`: take the first `n` characters. -/
def strTake (w : String) (n : Nat) : String :=
  String.mk (w.toList.take n)

/-! ## Data model: `SkillMetadata` (skill_activator.py lines 75-91) -/

/-- Embedding of the `SkillMetadata` dataclass.  `path` is kept as a plain
string; `confidence_threshold` is a rational. -/
structure SkillMetadata where
  name : String
  path : String := ""
  source : String := ""
  priority : String := "medium"
  enforcement : String := "suggested"
  description : String := ""
  keywords_korean : List String := []
  keywords_english : List String := []
  tags : List String := []
  use_cases : List String := []
  intent_patterns : List String := []
  auto_activate : Bool := true
  confidence_threshold : ℚ := 1/2
deriving DecidableEq, Repr

/-! ## Python dict as association list -/

/-- Python `d[k]` lookup (first binding wins; keys are unique in practice). -/
def dictGet {α : Type} : List (String × α) → String → Option α
  | [], _ => none
  | p :: rest, k => if p.1 = k then some p.2 else dictGet rest k

/-- Python `d[k] = v`: replace the binding in place if the key is present,
otherwise append a new binding at the end (dict insertion order). -/
def dictSet {α : Type} : List (String × α) → String → α → List (String × α)
  | [], k, v => [(k, v)]
  | p :: rest, k, v => if p.1 = k then (k, v) :: rest else p :: dictSet rest k v

/-! ## Registry merge (skill_activator.py `_load_all_skills`, lines 416-457) -/

/-- Merge of an `INDEX.yaml` entry into an existing registry record
(lines 437-454).  Each conditional mirrors one `if` of the source; the
in-place mutations are independent, so a single record update is faithful. -/
def mergeIndexed (existing indexed : SkillMetadata) : SkillMetadata :=
  { existing with
    keywords_korean :=
      if existing.keywords_korean = [] ∧ indexed.keywords_korean ≠ [] then
        indexed.keywords_korean
      else existing.keywords_korean,
    keywords_english :=
      if existing.keywords_english = [] ∧ indexed.keywords_english ≠ [] then
        indexed.keywords_english
      else existing.keywords_english,
    tags :=
      if existing.tags = [] ∧ indexed.tags ≠ [] then indexed.tags
      else existing.tags,
    use_cases :=
      if existing.use_cases = [] ∧ indexed.use_cases ≠ [] then indexed.use_cases
      else existing.use_cases,
    priority :=
      if indexed.priority ≠ "medium" then indexed.priority else existing.priority,
    confidence_threshold :=
      if indexed.confidence_threshold ≠ 1/2 then indexed.confidence_threshold
      else existing.confidence_threshold,
    auto_activate :=
      if indexed.auto_activate = false then false else existing.auto_activate }

/-- Loaded content of one discovered skills directory: the records obtained
from `SKILL.md` subdirectories (in iteration order) and, if an `INDEX.yaml`
exists, its parsed entries. -/
structure TierData where
  docs : List SkillMetadata
  indexEntries : Option (List (String × SkillMetadata))

/-- One iteration of the `for skill_path, source in reversed(...)` loop body
(lines 419-457): directory records overwrite the dict entry wholesale, then
`INDEX.yaml` entries merge into existing records or are inserted as new. -/
def processTier (skills : List (String × SkillMetadata)) (tier : TierData) :
    List (String × SkillMetadata) :=
  let afterDocs := tier.docs.foldl (fun m sk => dictSet m sk.name sk) skills
  match tier.indexEntries with
  | none => afterDocs
  | some entries =>
    entries.foldl (fun m p =>
      match dictGet m p.1 with
      | some ex => dictSet m p.1 (mergeIndexed ex p.2)
      | none => dictSet m p.1 p.2) afterDocs

/-- `_load_all_skills`: tiers are supplied highest-priority first (as
`_discover_skill_paths` returns them) and processed in reverse. -/
def loadAllSkills (paths : List TierData) : List (String × SkillMetadata) :=
  paths.reverse.foldl processTier []

/-! ## Scenario A data (claim C1)

The project tier holds a `debug-helper` directory whose `SKILL.md`
frontmatter declares a flat keyword list `['debug', 'error']` and `tags: []`;
per `_load_skill_from_directory` (lines 341-367) a flat list lands in
`keywords_english` and every other field takes its default.  The user tier has
no skill directories and an `INDEX.yaml` whose only entry `debug-helper`
declares `tags: ['diagnostics']`; per `_load_index_yaml` (lines 391-412) all
remaining fields take their defaults. -/

def debugHelperDoc : SkillMetadata :=
  { name := "debug-helper"
    path := "proj/.claude/skills/debug-helper"
    source := "project"
    keywords_english := ["debug", "error"]
    tags := [] }

def debugHelperIdx : SkillMetadata :=
  { name := "debug-helper"
    path := "userskills"
    source := "user"
    tags := ["diagnostics"] }

def projectTierA : TierData := { docs := [debugHelperDoc], indexEntries := none }

def userTierA : TierData :=
  { docs := [], indexEntries := some [("debug-helper", debugHelperIdx)] }

/-- Registry of Scenario A: tiers listed highest-priority first. -/
def registryA : List (String × SkillMetadata) :=
  loadAllSkills [projectTierA, userTierA]

/-- Fully populated record used to instantiate the additive-merge theorem. -/
def c2W_ex : SkillMetadata :=
  { name := "w-skill"
    priority := "high"
    description := "existing description"
    keywords_korean := ["디버그"]
    keywords_english := ["debug"]
    tags := ["tools"]
    use_cases := ["Debugging code"]
    auto_activate := true
    confidence_threshold := 3/5 }

/-- All-defaults artifact entry used to instantiate the additive-merge
theorem. -/
def c2W_idx : SkillMetadata := { name := "w-skill" }

/-! ## Query normalization (`_extract_keywords`, skill_activator.py 459-480) -/

/-- The `STOPWORDS` set (lines 124-142), as a list; only membership is used. -/
def STOPWORDS : List String :=
  ["해줘", "좀", "이거", "저거", "그거", "뭐", "뭔가", "어떻게", "왜", "언제",
   "어디", "누구", "무엇", "어떤", "있어", "없어", "하는", "되는", "같은",
   "있는", "없는", "해서", "해요", "합니다", "이다", "입니다", "새로운",
   "하려고", "있는데", "싶어", "만들어줘", "짜줘", "너무", "복잡한",
   "복잡해서", "찾고", "하고", "싶은", "필요",
   "the", "a", "an", "is", "are", "was", "were", "be", "been", "being",
   "have", "has", "had", "do", "does", "did", "will", "would", "should",
   "could", "can", "may", "might", "must", "shall", "this", "that", "these",
   "those", "i", "you", "he", "she", "it", "we", "they", "me", "him", "her",
   "us", "them", "my", "your", "his", "its", "our", "their", "what", "which",
   "who", "when", "where", "why", "how", "please", "just", "some", "need",
   "want", "help", "with", "for", "about", "like", "make", "create", "new",
   "to", "of", "in", "on", "at", "by", "from", "or", "and", "as", "so",
   "if", "then", "than", "but", "also", "only", "not", "no", "yes", "all",
   "any", "each", "every", "both", "few", "more", "most", "other", "such"]

/-- The `KOREAN_PARTICLES` list (lines 144-145), in source order. -/
def KOREAN_PARTICLES : List String :=
  ["가", "이", "은", "는", "을", "를", "에", "에서", "에게",
   "께서", "으로", "로", "의", "도", "만", "부터", "까지", "와", "과"]

/-- Word character for the normalization regex `[^\w\sㄱ-ㅎㅏ-ㅣ가-힣]` and
for `\b` boundaries: ASCII alphanumerics, underscore, Hangul compatibility
jamo (U+3131-U+3163) and Hangul syllables (U+AC00-U+D7A3) — the script ranges
the program handles. -/
def isWordChar (c : Char) : Bool :=
  c.isAlphanum || c = '_' ||
    (0x3131 ≤ c.toNat && c.toNat ≤ 0x3163) ||
    (0xAC00 ≤ c.toNat && c.toNat ≤ 0xD7A3)

/-- Line 462: lowercase, then replace every character that is neither a word
character nor whitespace (nor in the kept Korean ranges) by a space. -/
def normalizeText (text : String) : String :=
  String.mk (text.toLower.toList.map
    (fun c => if isWordChar c || c.isWhitespace then c else ' '))

/-- Python `str.split()`: split on whitespace runs, discarding empties. -/
def pySplit (s : String) : List String :=
  (s.split Char.isWhitespace).filter (fun t => t ≠ "")

/-- The particle-stripping loop (lines 471-475): the first particle that is a
suffix of `w` and satisfies `len(w) > len(particle) + 1` is removed; if none
qualifies the token is unchanged. -/
def stripParticle (w : String) : String :=
  match KOREAN_PARTICLES.find?
      (fun p => strEndsWith w p && decide (p.length + 1 < w.length)) with
  | some p => strDropRight w p.length
  | none => w

/-- `_extract_keywords` (lines 459-480): normalize, split, drop tokens
shorter than 2, strip one trailing particle, drop stopwords. -/
def extractKeywords (text : String) : List String :=
  (pySplit (normalizeText text)).filterMap (fun w =>
    if w.length < 2 then none
    else
      let wc := stripParticle w
      if wc ≠ "" ∧ wc ∉ STOPWORDS then some wc else none)

/-! ## Match scoring (`_calculate_match_score`, skill_activator.py 504-632)

The regular-expression engine applied to user-supplied intent patterns is an
external component; it enters the embedding as an oracle parameter
`intentMatch`.  The constructed patterns of `_check_word_boundary` (an escaped
keyword between two `\b`) have fixed semantics and are embedded directly. -/

/-- The keyword weights of `DEFAULT_CONFIG` (lines 114-120): `exact_match`,
`compound_match`, `partial_match`, `tag_match`, `use_case_match`. -/
structure Weights where
  exactW : ℚ
  compoundW : ℚ
  partW : ℚ
  tagW : ℚ
  useCaseW : ℚ
deriving DecidableEq, Repr

/-- Default keyword weights: 3.0, 2.5, 1.5, 2.0, 2.5. -/
def defaultWeights : Weights :=
  { exactW := 3, compoundW := 5/2, partW := 3/2, tagW := 2, useCaseW := 5/2 }

/-- The local `stopwords` set used for use-case/description keyword
extraction (lines 535-540). -/
def STOPWORDS2 : List String :=
  ["the", "and", "for", "this", "that", "with", "from", "use", "when",
   "should", "will", "can", "are", "was", "were", "been", "have", "has",
   "had", "not", "but", "what", "all", "your", "you", "they", "them",
   "their", "which", "who", "whom", "how", "any", "some", "such", "more",
   "most", "other", "into", "over", "only", "than", "then", "also", "just",
   "about", "using", "before", "after", "during", "like", "need", "needs"]

/-- Maximal runs of word characters in a character list (accumulator holds
the current run reversed). -/
def runsAux : List Char → List Char → List (List Char)
  | [], acc => if acc.isEmpty then [] else [acc.reverse]
  | c :: rest, acc =>
    if isWordChar c then runsAux rest (c :: acc)
    else if acc.isEmpty then runsAux rest [] else acc.reverse :: runsAux rest []

/-- Python `re.findall(r'\b[a-zA-Z]{3,}\b', s)`: the maximal word-character
runs that consist solely of ASCII letters and have length at least 3. -/
def alphaWords (s : String) : List String :=
  (runsAux s.toList []).filterMap (fun r =>
    if r.all Char.isAlpha && decide (3 ≤ r.length) then some (String.mk r)
    else none)

/-- Word-character test on an optional character (string edges count as
non-word). -/
def isWordOpt : Option Char → Bool
  | none => false
  | some c => isWordChar c

/-- Occurrence of `k` in `t` between two `\b` boundaries: some position `i`
carries `k` and the `\w`-ness flips at both ends. -/
def checkWB (k t : List Char) : Bool :=
  (List.range (t.length + 1)).any (fun i =>
    decide ((t.drop i).take k.length = k) &&
    (isWordOpt (if i = 0 then none else t.get? (i - 1)) != isWordOpt (t.get? i)) &&
    (isWordOpt (if i + k.length = 0 then none else t.get? (i + k.length - 1)) !=
      isWordOpt (t.get? (i + k.length))))

/-- `_check_word_boundary` (lines 482-492): word-boundary search of the
lowercased keyword in the lowercased text (the `re.error` fallback is
unreachable because the keyword is escaped). -/
def checkWordBoundary (keyword text : String) : Bool :=
  checkWB keyword.toLower.toList text.toLower.toList

/-- Lowercase every element (Python list comprehension with `.lower()`). -/
def lowerList (l : List String) : List String := l.map String.toLower

/-- Line 520: the flattened, lowercased skill keyword list. -/
def skillKeywordsOf (sk : SkillMetadata) : List String :=
  lowerList (sk.keywords_korean ++ sk.keywords_english)

/-- Lines 534-545: distinct use-case-derived keywords (alphabetic runs of
length ≥ 3 of each lowercased use case, minus `STOPWORDS2`); a Python set,
modeled as a deduplicated list. -/
def ucKeywordsOf (sk : SkillMetadata) : List String :=
  (((sk.use_cases.map (fun uc => alphaWords uc.toLower)).flatten).filter
    (fun v => decide (v ∉ STOPWORDS2))).dedup

/-- Lines 548-553: distinct description-derived keywords. -/
def descKeywordsOf (sk : SkillMetadata) : List String :=
  ((alphaWords sk.description.toLower).filter
    (fun v => decide (v ∉ STOPWORDS2))).dedup

/-- Lines 555-557: if the skill has no explicit keywords, the
description-derived set is substituted. -/
def effectiveKws (sk : SkillMetadata) : List String :=
  if skillKeywordsOf sk = [] ∧ descKeywordsOf sk ≠ [] then descKeywordsOf sk
  else skillKeywordsOf sk

/-- Line 566: a query keyword counts towards a compound match of `skillKw`
when it is a substring of it and has length at least 2. -/
def kwPred (skillKw uk : String) : Bool :=
  strContains skillKw uk && decide (2 ≤ uk.length)

/-- Line 566: `matching_parts` — the query-keyword occurrences (a list, so
duplicates count with multiplicity) matching one skill keyword. -/
def compoundParts (userKws : List String) (skillKw : String) : List String :=
  userKws.filter (fun uk => kwPred skillKw uk)

/-- Lines 564-570, score part: each skill keyword with at least 2 matching
query-keyword occurrences adds `len(matching_parts) * compound_match`. -/
def compoundScore (w : Weights) (userKws skillKws : List String) : ℚ :=
  (skillKws.map (fun kw =>
    if 2 ≤ (compoundParts userKws kw).length then
      ((compoundParts userKws kw).length : ℚ) * w.compoundW
    else 0)).sum

/-- Lines 564-570, consumption part: the set `matched_user_keywords` after
the compound pass (a Python set; only membership is ever used). -/
def compoundMatched (userKws skillKws : List String) : List String :=
  skillKws.foldl (fun acc kw =>
    if 2 ≤ (compoundParts userKws kw).length then acc ++ compoundParts userKws kw
    else acc) []

/-- Lines 590-598: the fuzzy rule — substring match with both lengths ≥ 4
and difference ≤ 3, or a shared 5-character head with both lengths ≥ 5. -/
def fuzzyMatch (uk sk : String) : Bool :=
  ((strContains sk uk || strContains uk sk) &&
    decide (4 ≤ min uk.length sk.length) &&
    decide (uk.length - sk.length ≤ 3) && decide (sk.length - uk.length ≤ 3)) ||
  (decide (5 ≤ uk.length) && decide (5 ≤ sk.length) &&
    (strStartsWith sk (strTake uk 5) || strStartsWith uk (strTake sk 5)))

/-- Lines 573-604: the first applicable rule of the per-keyword pass and its
weight (`none` when no rule applies). -/
def indivWeight (w : Weights) (skillKws ucKws descKws tags : List String)
    (uk : String) : Option ℚ :=
  if uk ∈ skillKws then some w.exactW
  else if uk ∈ ucKws then some w.useCaseW
  else if uk ∈ descKws then some w.partW
  else if skillKws.any (fun sk => fuzzyMatch uk sk) then some w.partW
  else if uk ∈ tags then some w.tagW
  else none

/-- One iteration of the per-keyword loop: skip if already consumed,
otherwise add the first applicable rule's weight and consume. -/
def indivStep (w : Weights) (skillKws ucKws descKws tags : List String)
    (st : ℚ × List String) (uk : String) : ℚ × List String :=
  if uk ∈ st.2 then st
  else
    match indivWeight w skillKws ucKws descKws tags uk with
    | some v => (st.1 + v, uk :: st.2)
    | none => st

/-- Lines 606-614: for each lowercased use case, if at least 2 distinct query
keywords occur among its alphabetic words, add `0.5` per overlapping word. -/
def overlapBonus (userKws ucLower : List String) : ℚ :=
  (ucLower.map (fun uc =>
    let ucw := (alphaWords uc).dedup
    let ov := (userKws.dedup.filter (fun u => decide (u ∈ ucw))).length
    if 2 ≤ ov then (ov : ℚ) * (1/2) else 0)).sum

/-- Lines 616-624: a flat `1.0` for every (query keyword occurrence,
use-case keyword) pair of lengths ≥ 4 where one is a head of the other. -/
def stemmingBonus (userKws ucKws : List String) : ℚ :=
  (userKws.map (fun uk =>
    (ucKws.map (fun uckw =>
      if decide (4 ≤ uk.length) && decide (4 ≤ uckw.length) &&
          (strStartsWith uckw uk || strStartsWith uk uckw) then (1 : ℚ)
      else 0)).sum)).sum

/-- Lines 513-517: intent-pattern bonus, through the regex oracle. -/
def intentBonus (w : Weights) (intentMatch : List String → String → Bool)
    (sk : SkillMetadata) (msg : String) : ℚ :=
  if sk.intent_patterns ≠ [] ∧ msg ≠ "" ∧ intentMatch sk.intent_patterns msg then
    w.exactW * 2
  else 0

/-- Lines 522-529: word-boundary bonus for the first 3 (pre-substitution)
skill keywords found in the lowercased message. -/
def primaryBonus (w : Weights) (skillKws : List String) (msg : String) : ℚ :=
  if msg ≠ "" ∧ skillKws ≠ [] then
    ((skillKws.take 3).map (fun pk =>
      if checkWordBoundary pk msg.toLower then w.exactW * 2 else 0)).sum
  else 0

/-- The value of the `score` variable before normalization (lines 510-624):
intent bonus, primary-keyword bonus, compound pass, per-keyword pass (seeded
with the compound pass's consumed set), use-case overlap bonus, stemming
bonus. -/
def rawScore (w : Weights) (intentMatch : List String → String → Bool)
    (userKws : List String) (sk : SkillMetadata) (msg : String) : ℚ :=
  intentBonus w intentMatch sk msg
    + primaryBonus w (skillKeywordsOf sk) msg
    + compoundScore w userKws (effectiveKws sk)
    + (userKws.foldl
        (indivStep w (effectiveKws sk) (ucKeywordsOf sk) (descKeywordsOf sk)
          (lowerList sk.tags))
        (0, compoundMatched userKws (effectiveKws sk))).1
    + overlapBonus userKws (lowerList sk.use_cases)
    + stemmingBonus userKws (ucKeywordsOf sk)

/-- The consumed set (`matched_user_keywords`) at the end of scoring. -/
def consumedAfter (w : Weights) (userKws : List String) (sk : SkillMetadata) :
    List String :=
  (userKws.foldl
    (indivStep w (effectiveKws sk) (ucKeywordsOf sk) (descKeywordsOf sk)
      (lowerList sk.tags))
    (0, compoundMatched userKws (effectiveKws sk))).2

/-- Number of query-keyword occurrences matching one skill keyword in the
compound pass (`len(matching_parts)` as a count). -/
def compoundTermCount (K : List String) (kw : String) : Nat :=
  K.countP (fun v => kwPred kw v)

/-- Per-skill-keyword compound contribution under the default weights. -/
def compoundTermQ (x : Nat) : ℚ :=
  if 2 ≤ x then (x : ℚ) * (5/2) else 0

/-- First-applicable-rule weight of the per-keyword pass under the default
weights, with 0 for "no rule applies". -/
def indivW0 (kws ucKws descKws tags : List String) (v : String) : ℚ :=
  (indivWeight defaultWeights kws ucKws descKws tags v).getD 0

/-- Record used to instantiate the score-monotonicity theorem. -/
def sk9 : SkillMetadata := { name := "s9", keywords_english := ["debug", "trace"] }

/-- `priority_multipliers` of `DEFAULT_CONFIG` with `.get(priority, 1.0)`. -/
def priorityMult (p : String) : ℚ :=
  if p = "high" then 3/2 else if p = "medium" then 1
  else if p = "low" then 7/10 else 1

/-- `_calculate_match_score` (lines 504-632): the returned normalized score.
Empty query-keyword lists and a zero maximum score short-circuit to 0. -/
def calcMatchScore (w : Weights) (intentMatch : List String → String → Bool)
    (userKws : List String) (sk : SkillMetadata) (msg : String) : ℚ :=
  if userKws = [] then 0
  else
    let maxPossible : ℚ := (userKws.length : ℚ) * w.exactW
    if maxPossible = 0 then 0
    else rawScore w intentMatch userKws sk msg / maxPossible * priorityMult sk.priority

/-- Threshold selection of `detect_skills` (lines 651-655): a supplied
override wins; otherwise Python's `skill.confidence_threshold or global`
falls back to the global default exactly when the record's threshold is the
falsy `0.0`. -/
def selectThreshold (override : Option ℚ) (skillThr globalThr : ℚ) : ℚ :=
  match override with
  | some t => t
  | none => if skillThr ≠ 0 then skillThr else globalThr

/-- Stable descending insertion by score (Python's stable `sort` with
`reverse=True`): an element moves ahead only of strictly smaller scores. -/
def insertDesc (x : SkillMetadata × ℚ) :
    List (SkillMetadata × ℚ) → List (SkillMetadata × ℚ)
  | [] => [x]
  | y :: rest => if y.2 < x.2 then x :: y :: rest else y :: insertDesc x rest

/-- Stable sort by score, descending. -/
def sortDesc (l : List (SkillMetadata × ℚ)) : List (SkillMetadata × ℚ) :=
  l.foldr insertDesc []

/-- `detect_skills` (lines 634-663): extract query keywords, score every
auto-activatable record, keep those reaching their selected threshold, sort
by score descending, truncate to `max_suggestions`. -/
def detectSkills (w : Weights) (intentMatch : List String → String → Bool)
    (globalThr : ℚ) (maxSuggestions : Nat) (override : Option ℚ)
    (skills : List SkillMetadata) (msg : String) : List (SkillMetadata × ℚ) :=
  let userKws := extractKeywords msg
  if userKws = [] then []
  else
    let found := skills.filterMap (fun sk =>
      if sk.auto_activate = false then none
      else
        let score := calcMatchScore w intentMatch userKws sk msg
        if selectThreshold override sk.confidence_threshold globalThr ≤ score then
          some (sk, score)
        else none)
    (sortDesc found).take maxSuggestions

/-- Record used to refute claim C5: its own threshold is the falsy `0.0`. -/
def c5_skill : SkillMetadata :=
  { name := "debug-skill"
    keywords_english := ["debugging"]
    confidence_threshold := 0 }

/-- Regex oracle answering `False` everywhere (no intent pattern matches). -/
def noIntent : List String → String → Bool := fun _ _ => false

/-! ## AI client retry/fallback (`AIClient.generate`, index_generator.py 371-428)

A single outbound request is an effectful boundary; it enters the embedding
as an oracle from (model, per-model retry index) to either a response text or
the string of the raised exception.  Sleeps carry no trace content and are
dropped. -/

/-- Outcome of one `_request_with_model` call: a response or `str(e)` of the
raised exception. -/
inductive ReqResult where
  | ok (response : String)
  | err (msg : String)
deriving DecidableEq, Repr

/-- Line 397: `'429' in error_str or 'rate' in error_str.lower()`. -/
def classifyRate (e : String) : Bool :=
  strContains e "429" || strContains e.toLower "rate"

/-- Line 404: `'404' in error_str or 'not found' in error_str.lower()`. -/
def classifyNotFound (e : String) : Bool :=
  strContains e "404" || strContains e.toLower "not found"

/-- Line 409: `any(code in error_str for code in ['500','502','503','504'])`. -/
def classifyServer (e : String) : Bool :=
  strContains e "500" || strContains e "502" || strContains e "503" ||
    strContains e "504"

/-- The `for retry in range(max_retries)` loop (lines 383-420) for one model:
returns the list of requests issued (one entry per attempt, all to `model`)
and the response on success.  Rate-limited, server and other errors retry the
same model (their branches differ only in sleep length); a failure classified
as not-found (checked after the rate classification) abandons the model. -/
def tryModelAux (oracle : String → Nat → ReqResult) (model : String) :
    Nat → Nat → List String × Option String
  | 0, _ => ([], none)
  | fuel + 1, retry =>
    match oracle model retry with
    | .ok r => ([model], some r)
    | .err e =>
      if classifyRate e then
        let next := tryModelAux oracle model fuel (retry + 1)
        (model :: next.1, next.2)
      else if classifyNotFound e then ([model], none)
      else if classifyServer e then
        let next := tryModelAux oracle model fuel (retry + 1)
        (model :: next.1, next.2)
      else
        let next := tryModelAux oracle model fuel (retry + 1)
        (model :: next.1, next.2)

/-- The `for model_idx, model in enumerate(models_to_try)` loop (lines
380-425): models are tried strictly in order; a success returns immediately,
otherwise the next model is attempted (exhaustion raises, modeled as `none`). -/
def generateTrace (oracle : String → Nat → ReqResult) (maxRetries : Nat) :
    List String → List String × Option String
  | [] => ([], none)
  | m :: ms =>
    match tryModelAux oracle m maxRetries 0 with
    | (tr, some r) => (tr, some r)
    | (tr, none) =>
      let rest := generateTrace oracle maxRetries ms
      (tr ++ rest.1, rest.2)

/-- `AIClient.generate`: candidate list `[primary] + fallback_models`
(line 376). -/
def generate (oracle : String → Nat → ReqResult) (model : String)
    (fallbacks : List String) (maxRetries : Nat) : List String × Option String :=
  generateTrace oracle maxRetries (model :: fallbacks)

/-- Scenario D oracle: model `x` always fails with a not-found-classified
error; any other model answers immediately. -/
def oracleD : String → Nat → ReqResult := fun model _ =>
  if model = "x" then .err "404: model does not exist" else .ok "hello"

/-! ## Index generation (`IndexGenerator.generate_index`, index_generator.py
574-731)

File reading and the AI extraction are effectful; each discovered skill
enters the embedding together with its outcome: unreadable (`continue`), or
extracted metadata (`None` when the AI response failed to parse). -/

/-- One per-skill entry of the written artifact (lines 683-692 and
702-710). -/
structure IndexSkillEntry where
  priority : String
  description : String
  keywords : List (String × List String)
  tags : List String
  use_cases : List String
  intent_patterns : List String := []
  auto_activate : Bool
  confidence_threshold : ℚ
deriving DecidableEq, Repr

/-- The artifact structure (lines 632-655), with the nested configuration
maps flattened into fields. -/
structure SkillIndex where
  version : String
  generated_by : String
  ai_provider : String
  ai_model : String
  mode : String
  confidence_threshold : ℚ
  max_suggestions : Nat
  pm_high : ℚ
  pm_medium : ℚ
  pm_low : ℚ
  kw_exact : ℚ
  kw_compound : ℚ
  kw_part : ℚ
  kw_tag : ℚ
  kw_use_case : ℚ
  skills : List (String × IndexSkillEntry)
deriving DecidableEq, Repr

/-- The freshly built index skeleton (lines 632-655). -/
def freshIndex (provider model : String) : SkillIndex :=
  { version := "1.0", generated_by := "ai-index-generator"
    ai_provider := provider, ai_model := model
    mode := "suggest", confidence_threshold := 1/2, max_suggestions := 3
    pm_high := 3/2, pm_medium := 1, pm_low := 7/10
    kw_exact := 3, kw_compound := 5/2, kw_part := 3/2, kw_tag := 4/5
    kw_use_case := 2, skills := [] }

/-- Parsed AI response (`metadata.get(...)` fields, lines 683-691). -/
structure ExtractedMeta where
  priority : Option String := none
  description : Option String := none
  keywords : Option (List (String × List String)) := none
  tags : Option (List String) := none
  use_cases : Option (List String) := none
  intent_patterns : Option (List String) := none
  confidence_threshold : Option ℚ := none
deriving DecidableEq, Repr

/-- Outcome for one skill: the document was unreadable, or extraction ran
(`none` meaning the response did not parse and the fallback is used). -/
inductive SkillOutcome where
  | readError
  | extracted (meta : Option ExtractedMeta)
deriving DecidableEq, Repr

/-- Entry construction: the extracted branch (lines 676-692) or the fallback
branch (lines 695-710; the skill name, hyphens replaced by spaces, becomes
the sole keyword of the first configured language). -/
def buildEntry (languages : List String) (skillName : String)
    (meta : Option ExtractedMeta) : IndexSkillEntry :=
  match meta with
  | some md =>
    { priority := md.priority.getD "medium"
      description := md.description.getD ""
      keywords := md.keywords.getD (languages.map (fun l => (l, [])))
      tags := md.tags.getD []
      use_cases := md.use_cases.getD []
      intent_patterns := md.intent_patterns.getD []
      auto_activate := true
      confidence_threshold := md.confidence_threshold.getD (7/10) }
  | none =>
    { priority := "medium"
      description := "Skill: " ++ skillName
      keywords :=
        match languages with
        | [] => []
        | l0 :: rest => (l0, [skillName.replace "-" " "]) :: rest.map (fun l => (l, []))
      tags := []
      use_cases := []
      intent_patterns := []
      auto_activate := true
      confidence_threshold := 7/10 }

/-- `generate_index` (lines 574-731) without the I/O: discovered skills are
filtered by a truthy `skills_filter`; an empty work list returns early with
no artifact written (`none`); with a truthy filter the pre-existing artifact
(when it exists and parses to a conforming structure, else `none`) seeds the
index, and each processed skill replaces exactly its own entry. -/
def generateIndex (provider model : String) (languages : List String)
    (discovered : List (String × SkillOutcome))
    (skillsFilter : Option (List String))
    (existingFile : Option SkillIndex) : Option SkillIndex :=
  let skills :=
    match skillsFilter with
    | some fl =>
      if fl.isEmpty then discovered
      else discovered.filter (fun p => fl.contains p.1)
    | none => discovered
  if skills.isEmpty then none
  else
    let existing :=
      match skillsFilter with
      | some fl => if fl.isEmpty then none else existingFile
      | none => none
    let index0 :=
      match existing with
      | some ex => ex
      | none => freshIndex provider model
    some (skills.foldl (fun idx p =>
      match p.2 with
      | SkillOutcome.readError => idx
      | SkillOutcome.extracted meta =>
        { idx with skills := dictSet idx.skills p.1 (buildEntry languages p.1 meta) })
      index0)

/-- Untargeted pre-existing entry used to instantiate the idempotence
theorem. -/
def c8W_entryB : IndexSkillEntry :=
  { priority := "medium", description := "existing b"
    keywords := [("english", ["bee"])], tags := [], use_cases := []
    intent_patterns := [], auto_activate := true, confidence_threshold := 7/10 }

/-- Pre-existing artifact used to instantiate the idempotence theorem. -/
def c8W_ex : SkillIndex :=
  { freshIndex "openai" "gpt-4o-mini" with skills := [("b", c8W_entryB)] }

/-- The regenerated artifact of the instantiation: only `a` is targeted. -/
def c8W_out : SkillIndex :=
  { c8W_ex with
    skills := [("b", c8W_entryB), ("a", buildEntry ["english"] "a" none)] }

/-! ## Rate limiter (`RateLimiter.wait_if_needed`, index_generator.py 94-129)

Wall-clock time is idealized: `time.time()` after `time.sleep(d)` returns
exactly the previous reading plus `d`.  Each call receives the external
reading `now0` taken on entry; timestamps are rationals. -/

/-- The limiter state: the sliding timestamp list (appended at the end, so
the head is the oldest retained entry) and the last request time. -/
structure RLState where
  request_times : List ℚ
  last_request_time : ℚ
deriving DecidableEq, Repr

/-- Initial state (lines 100-101): empty list, last request time 0. -/
def initRL : RLState := { request_times := [], last_request_time := 0 }

/-- Lines 107-112: the reading after the minimum-delay sleep — unchanged
when enough time has passed, otherwise advanced to `last + min_delay`. -/
def rlNow1 (minDelay : ℚ) (st : RLState) (now0 : ℚ) : ℚ :=
  if now0 - st.last_request_time < minDelay then
    st.last_request_time + minDelay
  else now0

/-- Line 115: prune timestamps older than one minute. -/
def rlPruned (minDelay : ℚ) (st : RLState) (now0 : ℚ) : List ℚ :=
  st.request_times.filter (fun t => decide (rlNow1 minDelay st now0 - t < 60))

/-- Line 120: the RPM wait, `60 - (now - oldest) + 0.1`, with `oldest` the
head of the pruned list. -/
def rlWait (minDelay : ℚ) (st : RLState) (now0 : ℚ) : ℚ :=
  60 - (rlNow1 minDelay st now0 - (rlPruned minDelay st now0).headD 0) + 1/10

/-- The reading after the RPM sleep. -/
def rlN2 (minDelay : ℚ) (st : RLState) (now0 : ℚ) : ℚ :=
  rlNow1 minDelay st now0 + rlWait minDelay st now0

/-- Lines 118-125: when the pruned list has reached the RPM cap and the wait
is positive, sleep and re-prune; the pair holds the final reading and the
retained timestamps before recording. -/
def rlFinal (rpm : Nat) (minDelay : ℚ) (st : RLState) (now0 : ℚ) :
    ℚ × List ℚ :=
  if rpm ≤ (rlPruned minDelay st now0).length then
    if 0 < rlWait minDelay st now0 then
      (rlN2 minDelay st now0,
        (rlPruned minDelay st now0).filter
          (fun t => decide (rlN2 minDelay st now0 - t < 60)))
    else (rlNow1 minDelay st now0, rlPruned minDelay st now0)
  else (rlNow1 minDelay st now0, rlPruned minDelay st now0)

/-- `wait_if_needed` (lines 103-129): returns the updated state and the
recorded request timestamp (lines 127-129 append it and set
`last_request_time`). -/
def waitIfNeeded (rpm : Nat) (minDelay : ℚ) (st : RLState) (now0 : ℚ) :
    RLState × ℚ :=
  ({ request_times := (rlFinal rpm minDelay st now0).2 ++
        [(rlFinal rpm minDelay st now0).1]
     last_request_time := (rlFinal rpm minDelay st now0).1 },
   (rlFinal rpm minDelay st now0).1)

/-- A sequence of `wait_if_needed` calls with external readings `inputs`;
returns the final state and the recorded timestamps in order. -/
def runRL (rpm : Nat) (minDelay : ℚ) : List ℚ → RLState → RLState × List ℚ
  | [], st => (st, [])
  | n :: ns, st =>
    let r := waitIfNeeded rpm minDelay st n
    let rest := runRL rpm minDelay ns r.1
    (rest.1, r.2 :: rest.2)

/-- The recorded request timestamps of a whole run from the initial state. -/
def rlHist (rpm : Nat) (minDelay : ℚ) (inputs : List ℚ) : List ℚ :=
  (runRL rpm minDelay inputs initRL).2

/-- Inductive invariant tying a limiter state to the history of recorded
timestamps: the retained list is capped by `rpm` and dominates the history
on every window reaching back at most 60 seconds from the last request;
recorded timestamps are bounded by the last request, nondecreasing, at least
`min_delay` apart, and end at the last request time. -/
def RLInv (rpm : Nat) (minDelay : ℚ) (st : RLState) (hist : List ℚ) : Prop :=
  st.request_times.length ≤ rpm ∧
  (∀ c : ℚ, st.last_request_time - 60 ≤ c →
    (hist.filter (fun t => decide (c < t))).length ≤
      (st.request_times.filter (fun t => decide (c < t))).length) ∧
  (∀ t ∈ hist, t ≤ st.last_request_time) ∧
  List.Pairwise (· ≤ ·) hist ∧
  List.Chain' (fun a b => a + minDelay ≤ b) hist ∧
  (hist = [] ∨ hist.getLast? = some st.last_request_time)

/-- Per-record window bound: every recorded timestamp closes a 60-second
window containing at most `rpm` of the timestamps recorded so far. -/
def WindowOK (rpm : Nat) (hist : List ℚ) : Prop :=
  ∀ ys z rest, hist = ys ++ z :: rest →
    ((ys ++ [z]).filter (fun t => decide (z - 60 < t))).length ≤ rpm

/-! # Theorems -/

/-! ## Claim C1 -/

/-- Claim C1 is false on the code: in Scenario A the canonical `debug-helper`
record has `tags = []`, not `tags = ["diagnostics"]` — the project-tier
document record replaces the user-tier artifact record wholesale. -/
theorem c1_counterexample :
    dictGet registryA "debug-helper" = some debugHelperDoc ∧
      debugHelperDoc.tags ≠ ["diagnostics"] := by
  constructor
  · rfl
  · decide

/-- Claim C1 amended: in Scenario A the canonical record for `debug-helper`
keeps the document's keywords `["debug", "error"]` but has `tags = []`; the
user-tier artifact entry is discarded because the higher-priority tier's
`SKILL.md` record overwrites the dict entry wholesale (only artifact entries
merge additively, and they are processed before any higher tier). -/
theorem c1_amended :
    ∃ r, dictGet registryA "debug-helper" = some r ∧
      r.keywords_english = ["debug", "error"] ∧ r.tags = [] :=
  ⟨debugHelperDoc, rfl, rfl, rfl⟩

/-! ## Claim C2: additive-merge invariant -/

/-- Claim C2: when an `INDEX.yaml` entry merges into an existing record, a
non-empty list field of the existing record is never overwritten (in
particular never by an empty list from the entry), and an entry carrying only
the defaults (`priority = "medium"`, `confidence_threshold = 0.5`,
`auto_activate = true`) changes none of priority, threshold or
auto-activation. -/
theorem c2_merge_additive (existing indexed : SkillMetadata) :
    (existing.keywords_korean ≠ [] →
      (mergeIndexed existing indexed).keywords_korean = existing.keywords_korean) ∧
    (existing.keywords_english ≠ [] →
      (mergeIndexed existing indexed).keywords_english = existing.keywords_english) ∧
    (existing.tags ≠ [] → (mergeIndexed existing indexed).tags = existing.tags) ∧
    (existing.use_cases ≠ [] →
      (mergeIndexed existing indexed).use_cases = existing.use_cases) ∧
    (indexed.priority = "medium" →
      (mergeIndexed existing indexed).priority = existing.priority) ∧
    (indexed.confidence_threshold = 1/2 →
      (mergeIndexed existing indexed).confidence_threshold =
        existing.confidence_threshold) ∧
    (indexed.auto_activate = true →
      (mergeIndexed existing indexed).auto_activate = existing.auto_activate) := by
  refine ⟨?_, ?_, ?_, ?_, ?_, ?_, ?_⟩ <;>
    intro h <;> simp only [mergeIndexed] <;> simp [h]

/-- Concrete instantiation of `c2_merge_additive`: a fully populated record
merged with an all-defaults entry is unchanged in every governed field. -/
theorem c2_merge_additive_witness :
    (mergeIndexed c2W_ex c2W_idx).keywords_korean = c2W_ex.keywords_korean ∧
      (mergeIndexed c2W_ex c2W_idx).tags = c2W_ex.tags ∧
      (mergeIndexed c2W_ex c2W_idx).priority = c2W_ex.priority ∧
      (mergeIndexed c2W_ex c2W_idx).confidence_threshold =
        c2W_ex.confidence_threshold ∧
      (mergeIndexed c2W_ex c2W_idx).auto_activate = c2W_ex.auto_activate :=
  ⟨(c2_merge_additive c2W_ex c2W_idx).1 (by decide),
   (c2_merge_additive c2W_ex c2W_idx).2.2.1 (by decide),
   (c2_merge_additive c2W_ex c2W_idx).2.2.2.2.1 rfl,
   (c2_merge_additive c2W_ex c2W_idx).2.2.2.2.2.1 rfl,
   (c2_merge_additive c2W_ex c2W_idx).2.2.2.2.2.2 rfl⟩

/-! ## Claim C10: merge frame -/

/-- Claim C10: merging an `INDEX.yaml` entry into an existing record can only
change keywords, tags, use cases, priority, confidence threshold and
auto-activation; name, path, source, enforcement, description and intent
patterns of the existing record are left untouched (an artifact's description
and intent patterns never flow into a document-sourced record). -/
theorem c10_merge_frame (existing indexed : SkillMetadata) :
    (mergeIndexed existing indexed).name = existing.name ∧
    (mergeIndexed existing indexed).path = existing.path ∧
    (mergeIndexed existing indexed).source = existing.source ∧
    (mergeIndexed existing indexed).enforcement = existing.enforcement ∧
    (mergeIndexed existing indexed).description = existing.description ∧
    (mergeIndexed existing indexed).intent_patterns = existing.intent_patterns :=
  ⟨rfl, rfl, rfl, rfl, rfl, rfl⟩

/-! ## Claim C6: compound-match pass -/

theorem mem_compoundMatched_aux (userKws : List String) (uk : String)
    (kws : List String) :
    ∀ acc : List String,
      (uk ∈ kws.foldl (fun acc kw =>
          if 2 ≤ (compoundParts userKws kw).length then
            acc ++ compoundParts userKws kw
          else acc) acc ↔
        uk ∈ acc ∨ ∃ kw ∈ kws, uk ∈ compoundParts userKws kw ∧
          2 ≤ (compoundParts userKws kw).length) := by
  induction kws with
  | nil => intro acc; simp
  | cons kw kws ih =>
    intro acc
    rw [List.foldl_cons, ih]
    by_cases h : 2 ≤ (compoundParts userKws kw).length
    · simp only [if_pos h, List.mem_append]
      constructor
      · rintro ((ha | hp) | ⟨kw', hkw', hmem, hlen⟩)
        · exact Or.inl ha
        · exact Or.inr ⟨kw, List.mem_cons_self kw kws, hp, h⟩
        · exact Or.inr ⟨kw', List.mem_cons_of_mem _ hkw', hmem, hlen⟩
      · rintro (ha | ⟨kw', hkw', hmem, hlen⟩)
        · exact Or.inl (Or.inl ha)
        · rcases List.mem_cons.mp hkw' with rfl | hkw'
          · exact Or.inl (Or.inr hmem)
          · exact Or.inr ⟨kw', hkw', hmem, hlen⟩
    · simp only [if_neg h]
      constructor
      · rintro (ha | ⟨kw', hkw', hmem, hlen⟩)
        · exact Or.inl ha
        · exact Or.inr ⟨kw', List.mem_cons_of_mem _ hkw', hmem, hlen⟩
      · rintro (ha | ⟨kw', hkw', hmem, hlen⟩)
        · exact Or.inl ha
        · rcases List.mem_cons.mp hkw' with rfl | hkw'
          · exact absurd hlen h
          · exact Or.inr ⟨kw', hkw', hmem, hlen⟩

theorem mem_compoundMatched (userKws skillKws : List String) (uk : String) :
    uk ∈ compoundMatched userKws skillKws ↔
      ∃ kw ∈ skillKws, uk ∈ userKws ∧ kwPred kw uk = true ∧
        2 ≤ userKws.countP (fun v => kwPred kw v) := by
  unfold compoundMatched
  rw [mem_compoundMatched_aux]
  simp only [List.not_mem_nil, false_or]
  constructor
  · rintro ⟨kw, hkw, hmem, hlen⟩
    rw [compoundParts, List.mem_filter] at hmem
    refine ⟨kw, hkw, hmem.1, hmem.2, ?_⟩
    rwa [List.countP_eq_length_filter]
  · rintro ⟨kw, hkw, hu, hp, hc⟩
    rw [List.countP_eq_length_filter] at hc
    exact ⟨kw, hkw, List.mem_filter.mpr ⟨hu, hp⟩, hc⟩

/-- Claim C6 is false on the code: with query keywords `["ab", "ab"]` and
skill keyword `"abc"`, only one distinct query keyword matches, yet the
compound pass adds `2 × compoundMatchWeight = 5` because `matching_parts`
is a list comprehension that counts duplicate occurrences. -/
theorem c6_counterexample :
    ((["ab", "ab"] : List String).dedup.filter (fun v => kwPred "abc" v)).length = 1 ∧
      compoundScore defaultWeights ["ab", "ab"] ["abc"] = 5 := by
  refine ⟨by decide, ?_⟩
  with_unfolding_all rfl

/-- Claim C6 amended: for every skill keyword the compound bonus
`count × compoundMatchWeight` is added if and only if at least 2 query-keyword
occurrences (length ≥ 2, counted with multiplicity — a keyword appearing twice
counts twice) are substrings of it, with `count` that occurrence count; those
query keywords are marked consumed. -/
theorem c6_compound_multiplicity (w : Weights) (userKws skillKws : List String) :
    compoundScore w userKws skillKws =
      (skillKws.map (fun kw =>
        if 2 ≤ userKws.countP (fun v => kwPred kw v) then
          (userKws.countP (fun v => kwPred kw v) : ℚ) * w.compoundW
        else 0)).sum ∧
    ∀ uk, uk ∈ compoundMatched userKws skillKws ↔
      ∃ kw ∈ skillKws, uk ∈ userKws ∧ kwPred kw uk = true ∧
        2 ≤ userKws.countP (fun v => kwPred kw v) := by
  constructor
  · simp only [compoundScore, compoundParts, List.countP_eq_length_filter]
  · intro uk
    exact mem_compoundMatched userKws skillKws uk

/-! ## Claim C9: strict monotonicity of the raw score -/

theorem list_sum_sub (f g : String → ℚ) (l : List String) :
    (l.map (fun x => f x - g x)).sum = (l.map f).sum - (l.map g).sum := by
  induction l with
  | nil => simp
  | cons a t ih =>
    simp only [List.map_cons, List.sum_cons, ih]
    ring

theorem toFinset_sum_le_map_sum (l : List String) (f : String → ℚ)
    (hf : ∀ x ∈ l, 0 ≤ f x) :
    Finset.sum l.toFinset f ≤ (l.map f).sum := by
  induction l with
  | nil => simp
  | cons a t ih =>
    simp only [List.toFinset_cons, List.map_cons, List.sum_cons]
    have ih' := ih (fun x hx => hf x (List.mem_cons_of_mem _ hx))
    have hfa := hf a (List.mem_cons_self _ _)
    by_cases ha : a ∈ t.toFinset
    · rw [Finset.insert_eq_self.mpr ha]
      linarith
    · rw [Finset.sum_insert ha]
      linarith

theorem two_mem_countP (l : List String) (p : String → Bool) (a b : String)
    (hab : a ≠ b) (ha : a ∈ l) (hpa : p a = true) (hb : b ∈ l)
    (hpb : p b = true) : 2 ≤ l.countP p := by
  rw [List.countP_eq_length_filter]
  have ha' : a ∈ l.filter p := List.mem_filter.mpr ⟨ha, hpa⟩
  have hb' : b ∈ l.filter p := List.mem_filter.mpr ⟨hb, hpb⟩
  cases hfp : l.filter p with
  | nil => rw [hfp] at ha'; cases ha'
  | cons x xs =>
    cases hxs : xs with
    | nil =>
      rw [hfp, hxs] at ha' hb'
      simp at ha' hb'
      rw [ha', hb'] at hab
      exact absurd rfl hab
    | cons y ys =>
      simp only [List.length_cons]
      omega

theorem indivStep_fst (w : Weights) (kws ucKws descKws tags : List String) :
    ∀ (K : List String) (q : ℚ) (M : List String),
      (K.foldl (indivStep w kws ucKws descKws tags) (q, M)).1 =
        q + Finset.sum (K.toFinset \ M.toFinset)
          (fun v => (indivWeight w kws ucKws descKws tags v).getD 0) := by
  intro K
  induction K with
  | nil => intro q M; simp
  | cons a K ih =>
    intro q M
    rw [List.foldl_cons]
    by_cases ha : a ∈ M
    · rw [show indivStep w kws ucKws descKws tags (q, M) a = (q, M) from by
        unfold indivStep; rw [if_pos ha]]
      rw [ih, List.toFinset_cons,
        Finset.insert_sdiff_of_mem _ (List.mem_toFinset.mpr ha)]
    · have hnotm : a ∉ M.toFinset := fun hmem => ha (List.mem_toFinset.mp hmem)
      cases hw : indivWeight w kws ucKws descKws tags a with
      | none =>
        rw [show indivStep w kws ucKws descKws tags (q, M) a = (q, M) from by
          unfold indivStep; rw [if_neg ha, hw]]
        rw [ih, List.toFinset_cons, Finset.insert_sdiff_of_not_mem _ hnotm]
        by_cases haK : a ∈ K.toFinset \ M.toFinset
        · rw [Finset.insert_eq_self.mpr haK]
        · rw [Finset.sum_insert haK, hw]
          simp
      | some v =>
        rw [show indivStep w kws ucKws descKws tags (q, M) a = (q + v, a :: M)
          from by unfold indivStep; rw [if_neg ha, hw]]
        rw [ih, List.toFinset_cons, List.toFinset_cons,
          Finset.insert_sdiff_of_not_mem _ hnotm, Finset.sdiff_insert]
        by_cases haK : a ∈ K.toFinset \ M.toFinset
        · rw [Finset.insert_eq_self.mpr haK,
            ← Finset.add_sum_erase _ _ haK, hw]
          simp only [Option.getD_some]
          ring
        · rw [Finset.sum_insert haK,
            Finset.erase_eq_of_not_mem haK, hw]
          simp only [Option.getD_some]
          ring

theorem indivStep_snd_mem (w : Weights) (kws ucKws descKws tags : List String) :
    ∀ (K : List String) (q : ℚ) (M : List String) (x : String),
      x ∈ (K.foldl (indivStep w kws ucKws descKws tags) (q, M)).2 ↔
        x ∈ M ∨ (x ∈ K ∧ indivWeight w kws ucKws descKws tags x ≠ none) := by
  intro K
  induction K with
  | nil => intro q M x; simp
  | cons a K ih =>
    intro q M x
    rw [List.foldl_cons]
    by_cases ha : a ∈ M
    · rw [show indivStep w kws ucKws descKws tags (q, M) a = (q, M) from by
        unfold indivStep; rw [if_pos ha]]
      rw [ih]
      constructor
      · rintro (h | ⟨h1, h2⟩)
        · exact Or.inl h
        · exact Or.inr ⟨List.mem_cons_of_mem _ h1, h2⟩
      · rintro (h | ⟨h1, h2⟩)
        · exact Or.inl h
        · rcases List.mem_cons.mp h1 with rfl | h1
          · exact Or.inl ha
          · exact Or.inr ⟨h1, h2⟩
    · cases hw : indivWeight w kws ucKws descKws tags a with
      | none =>
        rw [show indivStep w kws ucKws descKws tags (q, M) a = (q, M) from by
          unfold indivStep; rw [if_neg ha, hw]]
        rw [ih]
        constructor
        · rintro (h | ⟨h1, h2⟩)
          · exact Or.inl h
          · exact Or.inr ⟨List.mem_cons_of_mem _ h1, h2⟩
        · rintro (h | ⟨h1, h2⟩)
          · exact Or.inl h
          · rcases List.mem_cons.mp h1 with rfl | h1
            · exact absurd hw h2
            · exact Or.inr ⟨h1, h2⟩
      | some v =>
        rw [show indivStep w kws ucKws descKws tags (q, M) a = (q + v, a :: M)
          from by unfold indivStep; rw [if_neg ha, hw]]
        rw [ih]
        constructor
        · rintro (h | ⟨h1, h2⟩)
          · rcases List.mem_cons.mp h with rfl | h
            · exact Or.inr ⟨List.mem_cons_self _ _, by rw [hw]; simp⟩
            · exact Or.inl h
          · exact Or.inr ⟨List.mem_cons_of_mem _ h1, h2⟩
        · rintro (h | ⟨h1, h2⟩)
          · exact Or.inl (List.mem_cons_of_mem _ h)
          · rcases List.mem_cons.mp h1 with rfl | h1
            · exact Or.inl (List.mem_cons_self _ _)
            · exact Or.inr ⟨h1, h2⟩

theorem compoundMatched_mono (K : List String) (k : String) (kws : List String)
    (x : String) (hx : x ∈ compoundMatched K kws) :
    x ∈ compoundMatched (K ++ [k]) kws := by
  rw [mem_compoundMatched] at hx ⊢
  obtain ⟨kw, hkw, hxK, hp, hc⟩ := hx
  refine ⟨kw, hkw, by simp [hxK], hp, ?_⟩
  rw [List.countP_append]
  omega

theorem compoundScore_eq_termQ (K kws : List String) :
    compoundScore defaultWeights K kws =
      (kws.map (fun kw => compoundTermQ (compoundTermCount K kw))).sum := by
  unfold compoundScore
  have hfun : (fun kw => if 2 ≤ (compoundParts K kw).length then
        ((compoundParts K kw).length : ℚ) * defaultWeights.compoundW else 0) =
      (fun kw => compoundTermQ (compoundTermCount K kw)) := by
    funext kw
    simp [compoundParts, compoundTermQ, compoundTermCount,
      List.countP_eq_length_filter, defaultWeights]
  rw [hfun]

theorem compoundTermCount_append (K : List String) (k : String) (kw : String) :
    compoundTermCount (K ++ [k]) kw =
      compoundTermCount K kw + (if kwPred kw k = true then 1 else 0) := by
  unfold compoundTermCount
  rw [List.countP_append]
  simp [List.countP_cons]

theorem compoundTermQ_mono (a b : Nat) (hab : a ≤ b) :
    compoundTermQ a ≤ compoundTermQ b := by
  unfold compoundTermQ
  by_cases h2a : 2 ≤ a
  · rw [if_pos h2a, if_pos (le_trans h2a hab)]
    have : (a : ℚ) ≤ b := by exact_mod_cast hab
    linarith
  · rw [if_neg h2a]
    by_cases h2b : 2 ≤ b
    · rw [if_pos h2b]
      positivity
    · rw [if_neg h2b]

theorem indivW0_le (kws ucKws descKws tags : List String) (v : String) :
    indivW0 kws ucKws descKws tags v ≤ 3 := by
  unfold indivW0 indivWeight
  split_ifs <;> simp [defaultWeights] <;> norm_num

theorem indivW0_nonneg (kws ucKws descKws tags : List String) (v : String) :
    0 ≤ indivW0 kws ucKws descKws tags v := by
  unfold indivW0 indivWeight
  split_ifs <;> simp [defaultWeights] <;> norm_num

theorem indivW0_exact (kws ucKws descKws tags : List String) (v : String)
    (hv : v ∈ kws) : indivW0 kws ucKws descKws tags v = 3 := by
  unfold indivW0 indivWeight
  rw [if_pos hv]
  rfl

theorem dedup_filter_length_mono (K : List String) (k : String)
    (p : String → Bool) :
    (K.dedup.filter p).length ≤ ((K ++ [k]).dedup.filter p).length := by
  rw [← List.toFinset_card_of_nodup ((List.nodup_dedup K).filter p),
    ← List.toFinset_card_of_nodup ((List.nodup_dedup (K ++ [k])).filter p)]
  apply Finset.card_le_card
  intro x hx
  rw [List.mem_toFinset, List.mem_filter, List.mem_dedup] at hx ⊢
  exact ⟨by simp [List.mem_append, hx.1], hx.2⟩

theorem halfBonus_mono (a b : Nat) (hab : a ≤ b) :
    (if 2 ≤ a then (a : ℚ) * (1/2) else 0) ≤
      (if 2 ≤ b then (b : ℚ) * (1/2) else 0) := by
  by_cases ha : 2 ≤ a
  · rw [if_pos ha, if_pos (le_trans ha hab)]
    have : (a : ℚ) ≤ b := by exact_mod_cast hab
    linarith
  · rw [if_neg ha]
    by_cases hb : 2 ≤ b
    · rw [if_pos hb]
      positivity
    · rw [if_neg hb]

theorem overlapBonus_mono (K : List String) (k : String)
    (ucLower : List String) :
    overlapBonus K ucLower ≤ overlapBonus (K ++ [k]) ucLower := by
  unfold overlapBonus
  apply List.sum_le_sum
  intro uc _
  exact halfBonus_mono _ _
    (dedup_filter_length_mono K k (fun u => decide (u ∈ (alphaWords uc).dedup)))

theorem stemmingBonus_append_le (K : List String) (k : String)
    (ucKws : List String) :
    stemmingBonus K ucKws ≤ stemmingBonus (K ++ [k]) ucKws := by
  unfold stemmingBonus
  rw [List.map_append, List.sum_append]
  have h0 : (0 : ℚ) ≤ (([k]).map (fun uk =>
      (ucKws.map (fun uckw =>
        if decide (4 ≤ uk.length) && decide (4 ≤ uckw.length) &&
            (strStartsWith uckw uk || strStartsWith uk uckw) then (1 : ℚ)
        else 0)).sum)).sum := by
    apply List.sum_nonneg
    intro x hx
    rcases List.mem_map.mp hx with ⟨uk, _, rfl⟩
    apply List.sum_nonneg
    intro y hy
    rcases List.mem_map.mp hy with ⟨z, _, rfl⟩
    split
    · norm_num
    · exact le_refl 0
  linarith

/-- Numeric core of claim C9, abstracted over the per-skill-keyword match
counts `n` (over `K`) and `m` (the appended keyword's contribution, 0 or 1),
the per-keyword-pass weights `w0`, and the consumed sets before (`Mf`) and
after (`M'f`) the append.  `P kw x` relates a skill keyword to a query
keyword occurrence it matches. -/
theorem core_numeric (kws : List String) (n m : String → Nat) (w0 : String → ℚ)
    (Kf Mf M'f : Finset String) (k : String) (P : String → String → Prop)
    (hw0le : ∀ v, w0 v ≤ 3)
    (hw0k : w0 k = 3)
    (hkKf : k ∉ Kf)
    (hMsub : Mf ⊆ M'f)
    (hattr : ∀ x ∈ (Kf \ Mf) ∩ M'f, ∃ kw ∈ kws, P kw x ∧ n kw = 1 ∧ m kw = 1)
    (hinj : ∀ kw x y, P kw x → P kw y → n kw = 1 → x = y)
    (hkMex : k ∈ M'f → ∃ kw ∈ kws, 1 ≤ n kw ∧ m kw = 1) :
    (kws.map (fun kw => compoundTermQ (n kw))).sum + Finset.sum (Kf \ Mf) w0 <
      (kws.map (fun kw => compoundTermQ (n kw + m kw))).sum +
        Finset.sum ((Kf ∪ {k}) \ M'f) w0 := by
  classical
  set D := (Kf \ Mf) ∩ M'f with hD
  have hΔnn : ∀ kw : String,
      0 ≤ compoundTermQ (n kw + m kw) - compoundTermQ (n kw) := by
    intro kw
    have := compoundTermQ_mono (n kw) (n kw + m kw) (Nat.le_add_right _ _)
    linarith
  have hΔ12 : ∀ kw : String, n kw = 1 → m kw = 1 →
      compoundTermQ (n kw + m kw) - compoundTermQ (n kw) = 5 := by
    intro kw h1 h2
    rw [h1, h2]
    unfold compoundTermQ
    norm_num
  have hΔge : ∀ kw : String, 1 ≤ n kw → m kw = 1 →
      5/2 ≤ compoundTermQ (n kw + m kw) - compoundTermQ (n kw) := by
    intro kw h1 h2
    rcases Nat.lt_or_ge (n kw) 2 with h | h
    · have h1' : n kw = 1 := by omega
      rw [hΔ12 kw h1' h2]
      norm_num
    · rw [h2]
      unfold compoundTermQ
      rw [if_pos (by omega : 2 ≤ n kw + 1), if_pos h]
      push_cast
      linarith
  have hdisj : Disjoint (Kf \ M'f) ({k} \ M'f) := by
    rw [Finset.disjoint_left]
    intro x hx1 hx2
    rw [Finset.mem_sdiff, Finset.mem_singleton] at hx2
    rw [Finset.mem_sdiff] at hx1
    exact hkKf (hx2.1 ▸ hx1.1)
  have hsdiff2 : Kf \ M'f = (Kf \ Mf) \ D := by
    ext x
    have hMx : x ∈ Mf → x ∈ M'f := fun h => hMsub h
    rw [hD]
    simp only [Finset.mem_sdiff, Finset.mem_inter]
    tauto
  have hDsub : D ⊆ Kf \ Mf := by
    rw [hD]
    exact Finset.inter_subset_left
  have hksing : Finset.sum ({k} \ M'f) w0 = (if k ∈ M'f then 0 else w0 k) := by
    by_cases hkM' : k ∈ M'f
    · rw [if_pos hkM']
      have hempty : ({k} : Finset String) \ M'f = ∅ := by
        ext x
        simp only [Finset.mem_sdiff, Finset.mem_singleton, Finset.not_mem_empty,
          iff_false, not_and]
        rintro rfl
        simp [hkM']
      rw [hempty, Finset.sum_empty]
    · rw [if_neg hkM']
      have hsing : ({k} : Finset String) \ M'f = {k} := by
        ext x
        simp only [Finset.mem_sdiff, Finset.mem_singleton]
        constructor
        · rintro ⟨h, _⟩
          exact h
        · rintro rfl
          exact ⟨rfl, hkM'⟩
      rw [hsing, Finset.sum_singleton]
  have hsplitI : Finset.sum ((Kf ∪ {k}) \ M'f) w0 =
      Finset.sum (Kf \ Mf) w0 - Finset.sum D w0 +
        (if k ∈ M'f then 0 else w0 k) := by
    rw [Finset.union_sdiff_distrib, Finset.sum_union hdisj, hsdiff2, hksing]
    have := Finset.sum_sdiff (f := w0) hDsub
    linarith
  choose g hg1 hg2 hg3 hg4 using hattr
  have hginjD : ∀ x (hx : x ∈ D), ∀ y (hy : y ∈ D), g x hx = g y hy → x = y := by
    intro x hx y hy heq
    refine hinj (g x hx) x y (hg2 x hx) ?_ (hg3 x hx)
    rw [heq]
    exact hg2 y hy
  have hΔsum : (kws.map (fun kw => compoundTermQ (n kw + m kw))).sum -
      (kws.map (fun kw => compoundTermQ (n kw))).sum =
      (kws.map (fun kw =>
        compoundTermQ (n kw + m kw) - compoundTermQ (n kw))).sum :=
    (list_sum_sub _ _ kws).symm
  have hC_ge : (D.card : ℚ) * 5 ≤ (kws.map (fun kw =>
      compoundTermQ (n kw + m kw) - compoundTermQ (n kw))).sum := by
    set g0 : String → String := fun x => if hx : x ∈ D then g x hx else ""
      with hgdef
    have hginj2 : ∀ x ∈ D, ∀ y ∈ D, g0 x = g0 y → x = y := by
      intro x hx y hy heq
      rw [hgdef] at heq
      simp only [dif_pos hx, dif_pos hy] at heq
      exact hginjD x hx y hy heq
    have heach : ∀ x ∈ D,
        compoundTermQ (n (g0 x) + m (g0 x)) - compoundTermQ (n (g0 x)) = 5 := by
      intro x hx
      rw [hgdef]
      simp only [dif_pos hx]
      exact hΔ12 _ (hg3 x hx) (hg4 x hx)
    have h1 : Finset.sum (D.image g0) (fun kw =>
        compoundTermQ (n kw + m kw) - compoundTermQ (n kw)) = (D.card : ℚ) * 5 := by
      rw [Finset.sum_image hginj2, Finset.sum_congr rfl heach, Finset.sum_const]
      simp [nsmul_eq_mul]
    have h2 : D.image g0 ⊆ kws.toFinset := by
      intro y hy
      rcases Finset.mem_image.mp hy with ⟨x, hx, rfl⟩
      rw [hgdef]
      simp only [dif_pos hx]
      exact List.mem_toFinset.mpr (hg1 x hx)
    calc (D.card : ℚ) * 5
        = Finset.sum (D.image g0) (fun kw =>
            compoundTermQ (n kw + m kw) - compoundTermQ (n kw)) := h1.symm
      _ ≤ Finset.sum kws.toFinset (fun kw =>
            compoundTermQ (n kw + m kw) - compoundTermQ (n kw)) :=
          Finset.sum_le_sum_of_subset_of_nonneg h2 (fun x _ _ => hΔnn x)
      _ ≤ (kws.map (fun kw =>
            compoundTermQ (n kw + m kw) - compoundTermQ (n kw))).sum :=
          toFinset_sum_le_map_sum kws _ (fun x _ => hΔnn x)
  have hDw : Finset.sum D w0 ≤ (D.card : ℚ) * 3 := by
    calc Finset.sum D w0 ≤ Finset.sum D (fun _ => (3 : ℚ)) :=
        Finset.sum_le_sum (fun x _ => hw0le x)
      _ = (D.card : ℚ) * 3 := by
        rw [Finset.sum_const]
        simp [nsmul_eq_mul]
  rw [hsplitI]
  by_cases hk' : k ∈ M'f
  · rw [if_pos hk']
    by_cases hD0 : D = ∅
    · obtain ⟨kw0, hkw0, hn0, hm0⟩ := hkMex hk'
      have hΔ0 := hΔge kw0 hn0 hm0
      have hsum0 : compoundTermQ (n kw0 + m kw0) - compoundTermQ (n kw0) ≤
          (kws.map (fun kw =>
            compoundTermQ (n kw + m kw) - compoundTermQ (n kw))).sum := by
        calc compoundTermQ (n kw0 + m kw0) - compoundTermQ (n kw0)
            ≤ Finset.sum kws.toFinset (fun kw =>
                compoundTermQ (n kw + m kw) - compoundTermQ (n kw)) :=
              Finset.single_le_sum (fun x _ => hΔnn x)
                (List.mem_toFinset.mpr hkw0)
          _ ≤ _ := toFinset_sum_le_map_sum kws _ (fun x _ => hΔnn x)
      have hDz : Finset.sum D w0 = 0 := by
        rw [hD0]
        exact Finset.sum_empty
      linarith
    · have hcard : (1 : ℚ) ≤ D.card := by
        exact_mod_cast Finset.card_pos.mpr (Finset.nonempty_iff_ne_empty.mpr hD0)
      linarith
  · rw [if_neg hk', hw0k]
    have hc0 : (0 : ℚ) ≤ D.card := Nat.cast_nonneg _
    linarith

/-- Core of claim C9: appending an unconsumed exact skill keyword strictly
increases the combined compound-pass and per-keyword-pass contribution. -/
theorem compound_indiv_strict (kws ucKws descKws tags K : List String)
    (k : String) (hk : k ∈ kws) (hkK : k ∉ K)
    (hkM : k ∉ compoundMatched K kws) :
    compoundScore defaultWeights K kws +
        (K.foldl (indivStep defaultWeights kws ucKws descKws tags)
          (0, compoundMatched K kws)).1 <
      compoundScore defaultWeights (K ++ [k]) kws +
        ((K ++ [k]).foldl (indivStep defaultWeights kws ucKws descKws tags)
          (0, compoundMatched (K ++ [k]) kws)).1 := by
  have hCs := compoundScore_eq_termQ K kws
  have hCs' : compoundScore defaultWeights (K ++ [k]) kws =
      (kws.map (fun kw => compoundTermQ (compoundTermCount K kw +
        (if kwPred kw k = true then 1 else 0)))).sum := by
    rw [compoundScore_eq_termQ]
    have hfun : (fun kw => compoundTermQ (compoundTermCount (K ++ [k]) kw)) =
        (fun kw => compoundTermQ (compoundTermCount K kw +
          (if kwPred kw k = true then 1 else 0))) := by
      funext kw
      rw [compoundTermCount_append]
    rw [hfun]
  have hI : (K.foldl (indivStep defaultWeights kws ucKws descKws tags)
      (0, compoundMatched K kws)).1 =
      Finset.sum (K.toFinset \ (compoundMatched K kws).toFinset)
        (indivW0 kws ucKws descKws tags) := by
    rw [indivStep_fst]
    simp [indivW0]
  have htoF : (K ++ [k]).toFinset = K.toFinset ∪ {k} := by
    rw [List.toFinset_append]
    rfl
  have hI' : ((K ++ [k]).foldl (indivStep defaultWeights kws ucKws descKws tags)
      (0, compoundMatched (K ++ [k]) kws)).1 =
      Finset.sum ((K.toFinset ∪ {k}) \
          (compoundMatched (K ++ [k]) kws).toFinset)
        (indivW0 kws ucKws descKws tags) := by
    rw [indivStep_fst, htoF]
    simp [indivW0]
  rw [hCs, hCs', hI, hI']
  refine core_numeric kws (fun kw => compoundTermCount K kw)
    (fun kw => if kwPred kw k = true then 1 else 0)
    (indivW0 kws ucKws descKws tags) K.toFinset
    (compoundMatched K kws).toFinset
    (compoundMatched (K ++ [k]) kws).toFinset k
    (fun kw x => x ∈ K ∧ kwPred kw x = true)
    (indivW0_le kws ucKws descKws tags)
    (indivW0_exact kws ucKws descKws tags k hk)
    (fun h => hkK (List.mem_toFinset.mp h))
    (fun x hx => List.mem_toFinset.mpr
      (compoundMatched_mono K k kws x (List.mem_toFinset.mp hx)))
    ?_ ?_ ?_
  · -- attribution
    intro x hx
    rw [Finset.mem_inter, Finset.mem_sdiff] at hx
    obtain ⟨⟨hxK, hxM⟩, hxM'⟩ := hx
    have hxKl : x ∈ K := List.mem_toFinset.mp hxK
    have hxMl : x ∉ compoundMatched K kws := fun h =>
      hxM (List.mem_toFinset.mpr h)
    have hxM'l := List.mem_toFinset.mp hxM'
    rw [mem_compoundMatched] at hxM'l
    obtain ⟨kw, hkw, _, hpred, hcnt⟩ := hxM'l
    have hnot : ¬ (2 ≤ compoundTermCount K kw) := by
      intro h2
      exact hxMl ((mem_compoundMatched K kws x).mpr ⟨kw, hkw, hxKl, hpred, h2⟩)
    have hpos : 1 ≤ compoundTermCount K kw := by
      have h0 : 0 < K.countP (fun v => kwPred kw v) :=
        List.countP_pos_iff.mpr ⟨x, hxKl, hpred⟩
      exact h0
    have hcnt' : 2 ≤ compoundTermCount K kw +
        (if kwPred kw k = true then 1 else 0) := by
      rw [← compoundTermCount_append]
      exact hcnt
    cases hkp : kwPred kw k with
    | false =>
      exfalso
      rw [hkp] at hcnt'
      simp at hcnt'
      omega
    | true =>
      refine ⟨kw, hkw, ⟨hxKl, hpred⟩, ?_, by simp [hkp]⟩
      show compoundTermCount K kw = 1
      omega
  · -- injectivity of the attribution
    rintro kw x y ⟨hxK, hpx⟩ ⟨hyK, hpy⟩ hn1
    by_contra hxy
    have h2 := two_mem_countP K (fun v => kwPred kw v) x y hxy hxK hpx hyK hpy
    have hn1' : K.countP (fun v => kwPred kw v) = 1 := hn1
    omega
  · -- the appended keyword, when compound-consumed, names a gaining keyword
    intro hk'
    have hmem := List.mem_toFinset.mp hk'
    rw [mem_compoundMatched] at hmem
    obtain ⟨kw0, hkw0, _, hpred0, hcnt0⟩ := hmem
    refine ⟨kw0, hkw0, ?_, by simp [hpred0]⟩
    show 1 ≤ compoundTermCount K kw0
    have hcnt0' : 2 ≤ compoundTermCount K kw0 +
        (if kwPred kw0 k = true then 1 else 0) := by
      rw [← compoundTermCount_append]
      exact hcnt0
    rw [hpred0] at hcnt0'
    simp at hcnt0'
    omega

/-- Claim C9: under the default weights, appending to the query-keyword list
a keyword `k` exactly present in the skill's flattened keyword list and not
consumed when scoring `K` strictly increases the raw (pre-normalization)
score. -/
theorem c9_raw_score_monotonic (intentMatch : List String → String → Bool)
    (K : List String) (sk : SkillMetadata) (msg : String) (k : String)
    (hk : k ∈ skillKeywordsOf sk)
    (hnc : k ∉ consumedAfter defaultWeights K sk) :
    rawScore defaultWeights intentMatch K sk msg <
      rawScore defaultWeights intentMatch (K ++ [k]) sk msg := by
  have hkne : skillKeywordsOf sk ≠ [] := by
    intro h
    rw [h] at hk
    cases hk
  have hkws : effectiveKws sk = skillKeywordsOf sk := by
    unfold effectiveKws
    rw [if_neg]
    simp [hkne]
  have hk' : k ∈ effectiveKws sk := by rw [hkws]; exact hk
  have hW : indivWeight defaultWeights (effectiveKws sk) (ucKeywordsOf sk)
      (descKeywordsOf sk) (lowerList sk.tags) k ≠ none := by
    unfold indivWeight
    rw [if_pos hk']
    simp
  unfold consumedAfter at hnc
  rw [indivStep_snd_mem] at hnc
  push_neg at hnc
  obtain ⟨hkM, hK⟩ := hnc
  have hkK : k ∉ K := fun hkk => hW (hK hkk)
  have hcore := compound_indiv_strict (effectiveKws sk) (ucKeywordsOf sk)
    (descKeywordsOf sk) (lowerList sk.tags) K k hk' hkK hkM
  have hO := overlapBonus_mono K k (lowerList sk.use_cases)
  have hS := stemmingBonus_append_le K k (ucKeywordsOf sk)
  unfold rawScore
  linarith

/-- Concrete instantiation of `c9_raw_score_monotonic`: appending the exact
keyword `debug` to the query `["alpha"]` strictly raises the raw score of
`sk9`. -/
theorem c9_raw_score_monotonic_witness :
    rawScore defaultWeights noIntent ["alpha"] sk9 "" <
      rawScore defaultWeights noIntent (["alpha"] ++ ["debug"]) sk9 "" :=
  c9_raw_score_monotonic noIntent ["alpha"] sk9 "" "debug"
    (of_decide_eq_true (by with_unfolding_all rfl))
    (of_decide_eq_true (by with_unfolding_all rfl))

/-! ## Claim C5: threshold selection -/

/-- Claim C5 is false on the code: the record `c5_skill` carries its own
`confidence_threshold = 0.0` and a positive score, so under the claim's rule
(own threshold when no override is supplied) it would be returned; but
Python's `skill.confidence_threshold or global_threshold` treats `0.0` as
falsy and compares against the global default `0.5` instead, so
`detect_skills` returns nothing. -/
theorem c5_counterexample :
    detectSkills defaultWeights noIntent (1/2) 3 none [c5_skill] "debug aa bb cc"
        = [] ∧
      0 ≤ calcMatchScore defaultWeights noIntent
          (extractKeywords "debug aa bb cc") c5_skill "debug aa bb cc" ∧
      c5_skill.auto_activate = true := by
  refine ⟨?_, ?_, rfl⟩
  · with_unfolding_all rfl
  · exact of_decide_eq_true (by with_unfolding_all rfl)

/-- Claim C5 amended: the threshold a record's score is compared against is
the caller-supplied override when one was supplied; otherwise the record's
own `confidence_threshold` when it is nonzero; otherwise (Python falsy `0.0`)
the registry's global default. -/
theorem c5_threshold_order (override : Option ℚ) (skillThr globalThr : ℚ) :
    (∀ t, override = some t → selectThreshold override skillThr globalThr = t) ∧
      (override = none → skillThr ≠ 0 →
        selectThreshold override skillThr globalThr = skillThr) ∧
      (override = none → skillThr = 0 →
        selectThreshold override skillThr globalThr = globalThr) := by
  refine ⟨?_, ?_, ?_⟩
  · rintro t rfl; rfl
  · rintro rfl h; simp [selectThreshold, h]
  · rintro rfl h; simp [selectThreshold, h]

/-- Concrete instantiation of `c5_threshold_order` at all three branches. -/
theorem c5_threshold_order_witness :
    selectThreshold (some (3/4)) (1/5) (1/2) = 3/4 ∧
      selectThreshold none (1/5) (1/2) = 1/5 ∧
      selectThreshold none 0 (1/2) = 1/2 :=
  ⟨(c5_threshold_order (some (3/4)) (1/5) (1/2)).1 (3/4) rfl,
   (c5_threshold_order none (1/5) (1/2)).2.1 rfl (by norm_num),
   (c5_threshold_order none 0 (1/2)).2.2 rfl rfl⟩

/-! ## Claim C3: retry/fallback ordering -/

theorem tryModelAux_ok (oracle : String → Nat → ReqResult) (m : String)
    (fuel retry : Nat) (r : String) (he : oracle m retry = ReqResult.ok r) :
    tryModelAux oracle m (fuel + 1) retry = ([m], some r) := by
  simp [tryModelAux, he]

theorem tryModelAux_brk (oracle : String → Nat → ReqResult) (m : String)
    (fuel retry : Nat) (e : String) (he : oracle m retry = ReqResult.err e)
    (h1 : classifyRate e = false) (h2 : classifyNotFound e = true) :
    tryModelAux oracle m (fuel + 1) retry = ([m], none) := by
  simp [tryModelAux, he, h1, h2]

theorem tryModelAux_cont (oracle : String → Nat → ReqResult) (m : String)
    (fuel retry : Nat) (e : String) (he : oracle m retry = ReqResult.err e)
    (hb : ¬(classifyRate e = false ∧ classifyNotFound e = true)) :
    tryModelAux oracle m (fuel + 1) retry =
      (m :: (tryModelAux oracle m fuel (retry + 1)).1,
        (tryModelAux oracle m fuel (retry + 1)).2) := by
  by_cases h1 : classifyRate e
  · simp [tryModelAux, he, h1]
  · have h1' : classifyRate e = false := by simpa using h1
    have h2 : classifyNotFound e = false := by
      cases hcnf : classifyNotFound e
      · rfl
      · exact absurd ⟨h1', hcnf⟩ hb
    by_cases h3 : classifyServer e <;> simp [tryModelAux, he, h1, h2, h3]

theorem tryModelAux_all_eq (oracle : String → Nat → ReqResult) (m : String) :
    ∀ fuel retry : Nat, ∀ x ∈ (tryModelAux oracle m fuel retry).1, x = m := by
  intro fuel
  induction fuel with
  | zero => intro retry x hx; simp [tryModelAux] at hx
  | succ fuel ih =>
    intro retry x hx
    cases he : oracle m retry with
    | ok r =>
      rw [tryModelAux_ok oracle m fuel retry r he] at hx
      simpa using hx
    | err e =>
      by_cases hb : classifyRate e = false ∧ classifyNotFound e = true
      · rw [tryModelAux_brk oracle m fuel retry e he hb.1 hb.2] at hx
        simpa using hx
      · rw [tryModelAux_cont oracle m fuel retry e he hb] at hx
        rcases List.mem_cons.mp hx with rfl | hx'
        · rfl
        · exact ih (retry + 1) x hx'

theorem tryModelAux_none_exhausted (oracle : String → Nat → ReqResult)
    (m : String) : ∀ fuel retry : Nat,
    (tryModelAux oracle m fuel retry).2 = none →
    (tryModelAux oracle m fuel retry).1.length = fuel ∨
      ∃ j e, (tryModelAux oracle m fuel retry).1.length = j + 1 ∧
        oracle m (retry + j) = ReqResult.err e ∧ classifyRate e = false ∧
        classifyNotFound e = true := by
  intro fuel
  induction fuel with
  | zero => intro retry _; left; simp [tryModelAux]
  | succ fuel ih =>
    intro retry hnone
    cases he : oracle m retry with
    | ok r =>
      rw [tryModelAux_ok oracle m fuel retry r he] at hnone
      simp at hnone
    | err e =>
      by_cases hb : classifyRate e = false ∧ classifyNotFound e = true
      · right
        refine ⟨0, e, ?_, by simpa using he, hb.1, hb.2⟩
        rw [tryModelAux_brk oracle m fuel retry e he hb.1 hb.2]
        rfl
      · rw [tryModelAux_cont oracle m fuel retry e he hb] at hnone ⊢
        simp only [List.length_cons]
        rcases ih (retry + 1) hnone with h | ⟨j, e', hlen, horacle, h1, h2⟩
        · left; omega
        · right
          refine ⟨j + 1, e', by omega, ?_, h1, h2⟩
          have hr : retry + 1 + j = retry + (j + 1) := by omega
          rwa [hr] at horacle

/-- Claim C3: when model `m` is exhausted (result `none`), the request trace
of `generate` over `[m] + fallbacks` is `m`'s full attempt segment followed
by the remaining models' trace — no request to a later model precedes it —
and that segment either used all `max_retries` attempts or ended at its
single not-found-classified failure.  In particular, with primary `x` always
failing not-found and fallback `["y"]`, the observed trace is `["x", "y"]`:
exactly one request to `x` before any request to `y`. -/
theorem c3_fallback_order (oracle : String → Nat → ReqResult) (R : Nat)
    (m : String) (ms : List String)
    (hnone : (tryModelAux oracle m R 0).2 = none) :
    (generate oracle m ms R).1 =
        (tryModelAux oracle m R 0).1 ++ (generateTrace oracle R ms).1 ∧
      (∀ x ∈ (tryModelAux oracle m R 0).1, x = m) ∧
      ((tryModelAux oracle m R 0).1.length = R ∨
        ∃ j e, (tryModelAux oracle m R 0).1.length = j + 1 ∧
          oracle m j = ReqResult.err e ∧ classifyRate e = false ∧
          classifyNotFound e = true) ∧
      (generate oracleD "x" ["y"] 3).1 = ["x", "y"] := by
  refine ⟨?_, tryModelAux_all_eq oracle m R 0, ?_,
    by with_unfolding_all rfl⟩
  · show (generateTrace oracle R (m :: ms)).1 = _
    rcases hT : tryModelAux oracle m R 0 with ⟨tr, res⟩
    rw [hT] at hnone
    simp only at hnone
    subst hnone
    simp only [generateTrace, hT]
  · have h := tryModelAux_none_exhausted oracle m R 0 hnone
    simpa using h

/-- Concrete instantiation of `c3_fallback_order` on the Scenario D oracle. -/
theorem c3_fallback_order_witness :
    (generate oracleD "x" ["y"] 3).1 =
        (tryModelAux oracleD "x" 3 0).1 ++ (generateTrace oracleD 3 ["y"]).1 ∧
      ∀ x ∈ (tryModelAux oracleD "x" 3 0).1, x = "x" :=
  ⟨(c3_fallback_order oracleD 3 "x" ["y"] (by with_unfolding_all rfl)).1,
   (c3_fallback_order oracleD 3 "x" ["y"] (by with_unfolding_all rfl)).2.1⟩

/-! ## Claim C8: subset regeneration preserves untargeted entries -/

theorem dictGet_dictSet_ne {α : Type} (k k' : String) (v : α) (hne : k ≠ k') :
    ∀ m : List (String × α), dictGet (dictSet m k v) k' = dictGet m k' := by
  intro m
  induction m with
  | nil =>
    show (if k = k' then some v else dictGet [] k') = dictGet [] k'
    rw [if_neg hne]
  | cons p rest ih =>
    show dictGet (if p.1 = k then (k, v) :: rest else p :: dictSet rest k v) k'
        = dictGet (p :: rest) k'
    by_cases hp : p.1 = k
    · rw [if_pos hp]
      show (if k = k' then some v else dictGet rest k')
          = (if p.1 = k' then some p.2 else dictGet rest k')
      rw [if_neg hne, if_neg (hp ▸ hne)]
    · rw [if_neg hp]
      show (if p.1 = k' then some p.2 else dictGet (dictSet rest k v) k')
          = (if p.1 = k' then some p.2 else dictGet rest k')
      rw [ih]

theorem generateIndex_fold_preserves (languages : List String) (name : String) :
    ∀ (sl : List (String × SkillOutcome)) (idx : SkillIndex),
      (∀ p ∈ sl, p.1 ≠ name) →
      dictGet ((sl.foldl (fun idx p =>
          match p.2 with
          | SkillOutcome.readError => idx
          | SkillOutcome.extracted meta =>
            { idx with
              skills := dictSet idx.skills p.1 (buildEntry languages p.1 meta) })
        idx).skills) name = dictGet idx.skills name := by
  intro sl
  induction sl with
  | nil => intro idx _; rfl
  | cons p rest ih =>
    intro idx hall
    rw [List.foldl_cons,
      ih _ (fun q hq => hall q (List.mem_cons_of_mem _ hq))]
    obtain ⟨pn, pout⟩ := p
    have hpn : pn ≠ name := hall (pn, pout) (List.mem_cons_self _ _)
    cases pout with
    | readError => rfl
    | extracted meta =>
      exact dictGet_dictSet_ne pn name _ hpn idx.skills

/-- Claim C8: regenerating with a non-empty `skills_filter` on top of an
existing, successfully parsed artifact leaves every entry whose name is not
in the filter with its pre-regeneration value. -/
theorem c8_subset_regeneration (provider model : String)
    (languages : List String) (discovered : List (String × SkillOutcome))
    (fl : List String) (ex out : SkillIndex) (hfl : fl ≠ [])
    (hrun : generateIndex provider model languages discovered (some fl)
        (some ex) = some out)
    (name : String) (hname : fl.contains name = false)
    (entry : IndexSkillEntry) (hent : dictGet ex.skills name = some entry) :
    dictGet out.skills name = some entry := by
  have hE : fl.isEmpty = false := by
    cases fl with
    | nil => exact absurd rfl hfl
    | cons a l => rfl
  simp only [generateIndex, hE, Bool.false_eq_true, if_false] at hrun
  by_cases hS : (discovered.filter (fun p => fl.contains p.1)).isEmpty
  · rw [if_pos hS] at hrun
    cases hrun
  · rw [if_neg hS] at hrun
    injection hrun with hrun
    subst hrun
    rw [generateIndex_fold_preserves]
    · exact hent
    · intro p hp hpn
      have hmem := (List.mem_filter.mp hp).2
      rw [hpn, hname] at hmem
      cases hmem

/-- Concrete instantiation of `c8_subset_regeneration`: regenerating only
`a` keeps the pre-existing entry `b` byte-equivalent in value. -/
theorem c8_subset_regeneration_witness :
    dictGet c8W_out.skills "b" = some c8W_entryB :=
  c8_subset_regeneration "openai" "gpt-4o-mini" ["english"]
    [("a", SkillOutcome.extracted none)] ["a"] c8W_ex c8W_out
    (by decide) (by with_unfolding_all rfl) "b" (by decide) c8W_entryB
    (by with_unfolding_all rfl)

/-! ## Claim C4: rate limiter invariants -/

theorem filter_length_mono {α : Type} (l : List α) (p q : α → Bool)
    (h : ∀ a ∈ l, p a = true → q a = true) :
    (l.filter p).length ≤ (l.filter q).length := by
  induction l with
  | nil => simp
  | cons a t ih =>
    have ht := ih (fun b hb hp => h b (List.mem_cons_of_mem _ hb) hp)
    simp only [List.filter_cons]
    by_cases hp : p a = true
    · rw [if_pos hp, if_pos (h a (List.mem_cons_self _ _) hp)]
      simpa using ht
    · rw [if_neg hp]
      by_cases hq : q a = true
      · rw [if_pos hq]
        simp only [List.length_cons]
        omega
      · rw [if_neg hq]
        exact ht

theorem rlNow1_ge (minDelay : ℚ) (st : RLState) (now0 : ℚ) :
    st.last_request_time + minDelay ≤ rlNow1 minDelay st now0 := by
  unfold rlNow1
  by_cases h : now0 - st.last_request_time < minDelay
  · rw [if_pos h]
  · rw [if_neg h]
    linarith [not_lt.mp h]

theorem rlPruned_mem_lt (minDelay : ℚ) (st : RLState) (now0 : ℚ) (t : ℚ)
    (ht : t ∈ rlPruned minDelay st now0) :
    rlNow1 minDelay st now0 - t < 60 := by
  have := List.of_mem_filter ht
  simpa using this

theorem rlPruned_ne_nil (rpm : Nat) (minDelay : ℚ) (st : RLState) (now0 : ℚ)
    (hrpm : 1 ≤ rpm) (hc : rpm ≤ (rlPruned minDelay st now0).length) :
    rlPruned minDelay st now0 ≠ [] := by
  intro h
  rw [h] at hc
  simp at hc
  omega

theorem rlWait_pos (rpm : Nat) (minDelay : ℚ) (st : RLState) (now0 : ℚ)
    (hrpm : 1 ≤ rpm) (hc : rpm ≤ (rlPruned minDelay st now0).length) :
    0 < rlWait minDelay st now0 := by
  obtain ⟨h0, tl, hp⟩ :=
    List.exists_cons_of_ne_nil (rlPruned_ne_nil rpm minDelay st now0 hrpm hc)
  have hh0 : rlNow1 minDelay st now0 - h0 < 60 :=
    rlPruned_mem_lt minDelay st now0 h0 (by rw [hp]; exact List.mem_cons_self _ _)
  have hhead : (rlPruned minDelay st now0).headD 0 = h0 := by rw [hp]; rfl
  unfold rlWait
  rw [hhead]
  linarith

theorem rlFinal_eq_of_cap (rpm : Nat) (minDelay : ℚ) (st : RLState) (now0 : ℚ)
    (hrpm : 1 ≤ rpm) (hc : rpm ≤ (rlPruned minDelay st now0).length) :
    rlFinal rpm minDelay st now0 =
      (rlN2 minDelay st now0,
        (rlPruned minDelay st now0).filter
          (fun t => decide (rlN2 minDelay st now0 - t < 60))) := by
  unfold rlFinal
  rw [if_pos hc, if_pos (rlWait_pos rpm minDelay st now0 hrpm hc)]

theorem rlFinal_eq_of_room (rpm : Nat) (minDelay : ℚ) (st : RLState) (now0 : ℚ)
    (hc : ¬ rpm ≤ (rlPruned minDelay st now0).length) :
    rlFinal rpm minDelay st now0 =
      (rlNow1 minDelay st now0, rlPruned minDelay st now0) := by
  unfold rlFinal
  rw [if_neg hc]

theorem rlFinal_fst_ge (rpm : Nat) (minDelay : ℚ) (st : RLState) (now0 : ℚ)
    (hrpm : 1 ≤ rpm) :
    rlNow1 minDelay st now0 ≤ (rlFinal rpm minDelay st now0).1 := by
  by_cases hc : rpm ≤ (rlPruned minDelay st now0).length
  · rw [rlFinal_eq_of_cap rpm minDelay st now0 hrpm hc]
    have hw := rlWait_pos rpm minDelay st now0 hrpm hc
    show rlNow1 minDelay st now0 ≤ rlN2 minDelay st now0
    unfold rlN2
    linarith
  · rw [rlFinal_eq_of_room rpm minDelay st now0 hc]

theorem rlFinal_snd_eq (rpm : Nat) (minDelay : ℚ) (st : RLState) (now0 : ℚ)
    (hrpm : 1 ≤ rpm) :
    (rlFinal rpm minDelay st now0).2 =
      st.request_times.filter
        (fun t => decide ((rlFinal rpm minDelay st now0).1 - t < 60)) := by
  by_cases hc : rpm ≤ (rlPruned minDelay st now0).length
  · rw [rlFinal_eq_of_cap rpm minDelay st now0 hrpm hc]
    show (rlPruned minDelay st now0).filter _ = _
    unfold rlPruned
    rw [List.filter_filter]
    apply List.filter_congr
    intro t _
    have hw := rlWait_pos rpm minDelay st now0 hrpm hc
    by_cases ht : rlN2 minDelay st now0 - t < 60
    · have h1 : rlNow1 minDelay st now0 - t < 60 := by
        have hle : rlNow1 minDelay st now0 ≤ rlN2 minDelay st now0 := by
          unfold rlN2; linarith
        linarith
      simp [ht, h1]
    · simp [ht]
  · rw [rlFinal_eq_of_room rpm minDelay st now0 hc]
    rfl

theorem rlFinal_snd_len (rpm : Nat) (minDelay : ℚ) (st : RLState) (now0 : ℚ)
    (hrpm : 1 ≤ rpm) (hlen : st.request_times.length ≤ rpm) :
    (rlFinal rpm minDelay st now0).2.length + 1 ≤ rpm := by
  by_cases hc : rpm ≤ (rlPruned minDelay st now0).length
  · rw [rlFinal_eq_of_cap rpm minDelay st now0 hrpm hc]
    obtain ⟨h0, tl, hp⟩ :=
      List.exists_cons_of_ne_nil (rlPruned_ne_nil rpm minDelay st now0 hrpm hc)
    have hhead : (rlPruned minDelay st now0).headD 0 = h0 := by rw [hp]; rfl
    have hfail : ¬ (rlN2 minDelay st now0 - h0 < 60) := by
      unfold rlN2 rlWait
      rw [hhead]
      intro hcon
      linarith
    show ((rlPruned minDelay st now0).filter _).length + 1 ≤ rpm
    rw [hp, List.filter_cons, if_neg (by simpa using hfail)]
    have h1 : (tl.filter (fun t => decide (rlN2 minDelay st now0 - t < 60))).length
        ≤ tl.length := List.length_filter_le _ _
    have h2 : (h0 :: tl).length ≤ st.request_times.length := by
      rw [← hp]
      exact List.length_filter_le _ _
    simp only [List.length_cons] at h2
    omega
  · rw [rlFinal_eq_of_room rpm minDelay st now0 hc]
    show (rlPruned minDelay st now0).length + 1 ≤ rpm
    omega

theorem RLInv_step (rpm : Nat) (minDelay : ℚ) (hrpm : 1 ≤ rpm)
    (hmd : 0 ≤ minDelay) (st : RLState) (hist : List ℚ) (now0 : ℚ)
    (hinv : RLInv rpm minDelay st hist) :
    RLInv rpm minDelay (waitIfNeeded rpm minDelay st now0).1
        (hist ++ [(waitIfNeeded rpm minDelay st now0).2]) ∧
      ((hist ++ [(waitIfNeeded rpm minDelay st now0).2]).filter
        (fun t => decide ((waitIfNeeded rpm minDelay st now0).2 - 60 < t))).length
        ≤ rpm := by
  obtain ⟨hlen, hcount, hub, hpw, hch, hlast⟩ := hinv
  have hn2eq : (waitIfNeeded rpm minDelay st now0).2 =
      (rlFinal rpm minDelay st now0).1 := rfl
  rw [hn2eq]
  set n2 := (rlFinal rpm minDelay st now0).1 with hn2def
  have htimes : (waitIfNeeded rpm minDelay st now0).1.request_times =
      st.request_times.filter (fun t => decide (n2 - t < 60)) ++ [n2] := by
    show (rlFinal rpm minDelay st now0).2 ++ [(rlFinal rpm minDelay st now0).1] = _
    rw [rlFinal_snd_eq rpm minDelay st now0 hrpm]
  have hlast' : (waitIfNeeded rpm minDelay st now0).1.last_request_time = n2 := rfl
  have hge : st.last_request_time + minDelay ≤ n2 :=
    le_trans (rlNow1_ge minDelay st now0) (rlFinal_fst_ge rpm minDelay st now0 hrpm)
  have hlastle : st.last_request_time ≤ n2 := by linarith
  have hnewlen : (waitIfNeeded rpm minDelay st now0).1.request_times.length ≤ rpm := by
    show ((rlFinal rpm minDelay st now0).2 ++ [n2]).length ≤ rpm
    rw [List.length_append]
    have := rlFinal_snd_len rpm minDelay st now0 hrpm hlen
    simpa using this
  have hpointwise : ∀ c : ℚ, n2 - 60 ≤ c →
      ((st.request_times.filter (fun t => decide (n2 - t < 60))).filter
        (fun t => decide (c < t))).length =
      (st.request_times.filter (fun t => decide (c < t))).length := by
    intro c hc
    rw [List.filter_filter]
    apply congrArg List.length
    apply List.filter_congr
    intro t _
    by_cases ht : c < t
    · have h60 : n2 - t < 60 := by linarith
      simp [ht, h60]
    · simp [ht]
  refine ⟨⟨hnewlen, ?_, ?_, ?_, ?_, ?_⟩, ?_⟩
  · -- count bound
    intro c hc
    rw [hlast'] at hc
    rw [htimes, List.filter_append, List.filter_append, List.length_append,
      List.length_append, hpointwise c hc]
    have hold := hcount c (by linarith)
    omega
  · -- upper bound by last request time
    intro t ht
    rw [hlast']
    rcases List.mem_append.mp ht with h | h
    · exact le_trans (hub t h) hlastle
    · simp at h
      rw [h]
  · -- pairwise
    refine List.pairwise_append.mpr ⟨hpw, by simp, ?_⟩
    intro a ha b hb
    simp at hb
    rw [hb]
    exact le_trans (hub a ha) hlastle
  · -- chain with gaps
    refine List.chain'_append.mpr ⟨hch, by simp, ?_⟩
    intro x hx y hy
    simp at hy
    rw [show y = n2 from hy.symm]
    rcases hlast with h | h
    · rw [h] at hx
      simp at hx
    · rw [h] at hx
      simp at hx
      rw [← hx]
      exact hge
  · -- last element
    right
    rw [hlast']
    exact List.getLast?_concat hist
  · -- window bound at the newly recorded timestamp
    rw [List.filter_append, List.length_append]
    have h1 := hcount (n2 - 60) (by linarith)
    have h2 : (st.request_times.filter (fun t => decide (n2 - 60 < t))).length =
        (st.request_times.filter (fun t => decide (n2 - t < 60))).length := by
      apply congrArg List.length
      apply List.filter_congr
      intro t _
      by_cases ht : n2 - 60 < t
      · have h60 : n2 - t < 60 := by linarith
        simp [ht, h60]
      · have h60 : ¬ (n2 - t < 60) := by
          intro hcon
          exact ht (by linarith)
        simp [ht, h60]
    have h3 := rlFinal_snd_len rpm minDelay st now0 hrpm hlen
    rw [rlFinal_snd_eq rpm minDelay st now0 hrpm, ← hn2def] at h3
    have h4 : (([n2] : List ℚ).filter (fun t => decide (n2 - 60 < t))).length = 1 := by
      simp [show n2 - 60 < n2 by linarith]
    omega

theorem WindowOK_nil (rpm : Nat) : WindowOK rpm [] := by
  intro ys z rest h
  have := congrArg List.length h
  simp [List.length_append] at this
  omega

theorem WindowOK_step (rpm : Nat) (hist : List ℚ) (w : ℚ)
    (hok : WindowOK rpm hist)
    (hnew : ((hist ++ [w]).filter (fun t => decide (w - 60 < t))).length ≤ rpm) :
    WindowOK rpm (hist ++ [w]) := by
  intro ys z rest heq
  rcases rest.eq_nil_or_concat with rfl | ⟨r0, y, hr⟩
  · obtain ⟨h1, h2⟩ := List.append_inj' heq rfl
    simp only [List.cons.injEq, and_true] at h2
    rw [h1, h2] at hnew
    exact hnew
  · rw [hr, List.concat_eq_append] at heq
    have heq' : hist ++ [w] = (ys ++ z :: r0) ++ [y] := by
      rw [heq]
      simp
    obtain ⟨h1, h2⟩ := List.append_inj' heq' rfl
    exact hok ys z r0 h1

theorem RLInv_init (rpm : Nat) (minDelay : ℚ) : RLInv rpm minDelay initRL [] := by
  refine ⟨by simp [initRL], ?_, by simp, by simp, by simp, Or.inl rfl⟩
  intro c _
  simp

theorem runRL_props (rpm : Nat) (minDelay : ℚ) (hrpm : 1 ≤ rpm)
    (hmd : 0 ≤ minDelay) :
    ∀ (inputs : List ℚ) (st : RLState) (hist : List ℚ),
      RLInv rpm minDelay st hist → WindowOK rpm hist →
      RLInv rpm minDelay (runRL rpm minDelay inputs st).1
          (hist ++ (runRL rpm minDelay inputs st).2) ∧
        WindowOK rpm (hist ++ (runRL rpm minDelay inputs st).2) := by
  intro inputs
  induction inputs with
  | nil =>
    intro st hist hinv hok
    simpa [runRL] using And.intro hinv hok
  | cons n ns ih =>
    intro st hist hinv hok
    have hstep := RLInv_step rpm minDelay hrpm hmd st hist n hinv
    have hok' := WindowOK_step rpm hist (waitIfNeeded rpm minDelay st n).2 hok
      hstep.2
    have hrec := ih (waitIfNeeded rpm minDelay st n).1
      (hist ++ [(waitIfNeeded rpm minDelay st n).2]) hstep.1 hok'
    have hassoc : hist ++ (runRL rpm minDelay (n :: ns) st).2 =
        (hist ++ [(waitIfNeeded rpm minDelay st n).2]) ++
          (runRL rpm minDelay ns (waitIfNeeded rpm minDelay st n).1).2 := by
      show hist ++ ((waitIfNeeded rpm minDelay st n).2 ::
        (runRL rpm minDelay ns (waitIfNeeded rpm minDelay st n).1).2) = _
      simp
    have hfst : (runRL rpm minDelay (n :: ns) st).1 =
        (runRL rpm minDelay ns (waitIfNeeded rpm minDelay st n).1).1 := rfl
    rw [hassoc, hfst]
    exact hrec

theorem windowBound (rpm : Nat) : ∀ hist : List ℚ,
    List.Pairwise (· ≤ ·) hist → WindowOK rpm hist →
    ∀ T : ℚ, (hist.filter (fun t => decide (T - 60 < t ∧ t ≤ T))).length ≤ rpm := by
  intro hist
  induction hist using List.reverseRecOn with
  | nil => intro _ _ T; simp
  | append_singleton ys z ih =>
    intro hpw hwin T
    have hpw' := List.pairwise_append.mp hpw
    have hokys : WindowOK rpm ys := by
      intro ys' z' rest' h
      refine hwin ys' z' (rest' ++ [z]) ?_
      rw [h]
      simp
    rw [List.filter_append, List.length_append]
    by_cases hzT : z ≤ T
    · by_cases hz60 : T - 60 < z
      · have hzw : (([z] : List ℚ).filter
            (fun t => decide (T - 60 < t ∧ t ≤ T))).length = 1 := by
          simp [hz60, hzT]
        rw [hzw]
        have hmono : (ys.filter (fun t => decide (T - 60 < t ∧ t ≤ T))).length ≤
            (ys.filter (fun t => decide (z - 60 < t))).length := by
          apply filter_length_mono
          intro a _ hpa
          simp only [decide_eq_true_eq] at hpa ⊢
          linarith [hpa.1]
        have hmain := hwin ys z [] rfl
        rw [List.filter_append, List.length_append] at hmain
        have hz1 : (([z] : List ℚ).filter
            (fun t => decide (z - 60 < t))).length = 1 := by
          simp [show z - 60 < z by linarith]
        rw [hz1] at hmain
        omega
      · have hys0 : ys.filter (fun t => decide (T - 60 < t ∧ t ≤ T)) = [] := by
          rw [List.filter_eq_nil_iff]
          intro a ha
          simp only [decide_eq_true_eq, not_and]
          intro h1 _
          have haz : a ≤ z := hpw'.2.2 a ha z (by simp)
          have hz : z ≤ T - 60 := not_lt.mp hz60
          linarith
        have hzw : (([z] : List ℚ).filter
            (fun t => decide (T - 60 < t ∧ t ≤ T))).length = 0 := by
          simp [hz60]
        rw [hys0, hzw]
        simp
    · have hzw : (([z] : List ℚ).filter
          (fun t => decide (T - 60 < t ∧ t ≤ T))).length = 0 := by
        simp [hzT]
      rw [hzw]
      have ihy := ih hpw'.1 hokys T
      omega

/-- Claim C4: over any sequence of `wait_if_needed` calls (idealized exact
sleeps, `min_delay ≥ 0`, `rpm ≥ 1`), consecutive recorded request timestamps
are at least `min_delay` apart, and every trailing 60-second window `(T-60, T]`
contains at most `rpm` recorded timestamps. -/
theorem c4_rate_limiter (rpm : Nat) (minDelay : ℚ) (hrpm : 1 ≤ rpm)
    (hmd : 0 ≤ minDelay) (inputs : List ℚ) :
    (∀ i : Nat, i + 1 < (rlHist rpm minDelay inputs).length →
      minDelay ≤ (rlHist rpm minDelay inputs).getD (i + 1) 0 -
        (rlHist rpm minDelay inputs).getD i 0) ∧
    ∀ T : ℚ, ((rlHist rpm minDelay inputs).filter
        (fun t => decide (T - 60 < t ∧ t ≤ T))).length ≤ rpm := by
  have hprops := runRL_props rpm minDelay hrpm hmd inputs initRL []
    (RLInv_init rpm minDelay) (WindowOK_nil rpm)
  rw [List.nil_append] at hprops
  obtain ⟨⟨_, _, _, hpw, hch, _⟩, hok⟩ := hprops
  constructor
  · intro i hi
    have hi' : i + 1 < (runRL rpm minDelay inputs initRL).2.length := hi
    have hc := List.chain'_iff_get.mp hch i (by omega)
    show minDelay ≤ (runRL rpm minDelay inputs initRL).2.getD (i + 1) 0 -
      (runRL rpm minDelay inputs initRL).2.getD i 0
    rw [List.getD_eq_getElem _ _ (by omega), List.getD_eq_getElem _ _ (by omega)]
    simp only [List.get_eq_getElem] at hc
    linarith
  · intro T
    exact windowBound rpm _ hpw hok T

/-- Concrete instantiation of `c4_rate_limiter`: three back-to-back calls
with `rpm = 2`, `min_delay = 1/2` record `[1/2, 1, 303/5]` — spacing at
least the minimum delay, and the window ending at the third request holds at
most 2 timestamps. -/
theorem c4_rate_limiter_witness :
    ((1/2 : ℚ) ≤ (rlHist 2 (1/2) [0, 0, 0]).getD 1 0 -
        (rlHist 2 (1/2) [0, 0, 0]).getD 0 0) ∧
      ((rlHist 2 (1/2) [0, 0, 0]).filter
        (fun t => decide ((303/5 : ℚ) - 60 < t ∧ t ≤ 303/5))).length ≤ 2 := by
  have hlen : (rlHist 2 (1/2) [0, 0, 0]).length = 3 := by
    with_unfolding_all rfl
  exact ⟨(c4_rate_limiter 2 (1/2) (by norm_num) (by norm_num) [0, 0, 0]).1 0
      (by omega),
    (c4_rate_limiter 2 (1/2) (by norm_num) (by norm_num) [0, 0, 0]).2 (303/5)⟩

/-! ## Claim C7: particle stripping -/

theorem strDropRight_length (w : String) (n : Nat) :
    (strDropRight w n).length = w.length - n := by
  show (w.toList.take (w.toList.length - n)).length = w.length - n
  rw [List.length_take]
  have h : w.length = w.toList.length := rfl
  rw [h]
  omega

theorem particles_nonempty : ∀ q ∈ KOREAN_PARTICLES, 1 ≤ q.length := by decide

/-- Claim C7 is false on the code: the token `서울에서` ends (only) with the
particle `에서` and its remaining stem `서울` is exactly as long as the
particle, so the claim predicts it is kept unmodified; the code strips it
(the actual condition is `len(w) > len(particle) + 1`, i.e. a stem of at
least 2 characters). -/
theorem c7_counterexample :
    (∀ p ∈ KOREAN_PARTICLES, strEndsWith "서울에서" p = true →
        ¬(p.length < "서울에서".length - p.length)) ∧
      stripParticle "서울에서" ≠ "서울에서" := by
  exact ⟨by decide, by decide⟩

/-- Claim C7 amended: a surviving token is kept unmodified exactly when no
particle of the fixed list is a suffix leaving a stem of length at least 2
(`len(w) > len(particle) + 1`), and otherwise the first such particle in
list order is stripped.  The claim's condition "stem strictly longer than
the particle" only coincides with this for one-character particles. -/
theorem c7_particle_strip (w : String) :
    (stripParticle w = w ↔
      ∀ p ∈ KOREAN_PARTICLES,
        ¬(strEndsWith w p = true ∧ p.length + 2 ≤ w.length)) ∧
    (∀ p, KOREAN_PARTICLES.find?
        (fun q => strEndsWith w q && decide (q.length + 1 < w.length)) = some p →
      stripParticle w = strDropRight w p.length) := by
  cases hF : KOREAN_PARTICLES.find?
      (fun q => strEndsWith w q && decide (q.length + 1 < w.length)) with
  | none =>
    have hnone := List.find?_eq_none.mp hF
    constructor
    · constructor
      · intro _ p hp hcond
        have := hnone p hp
        simp only [Bool.and_eq_true, decide_eq_true_eq] at this
        exact this ⟨hcond.1, by omega⟩
      · intro _
        simp [stripParticle, hF]
    · intro p hp
      cases hp
  | some p =>
    have hpred := List.find?_some hF
    have hmem := List.mem_of_find?_eq_some hF
    simp only [Bool.and_eq_true, decide_eq_true_eq] at hpred
    have hplen : 1 ≤ p.length := particles_nonempty p hmem
    have hstrip : stripParticle w = strDropRight w p.length := by
      simp [stripParticle, hF]
    have hlen : (stripParticle w).length < w.length := by
      rw [hstrip, strDropRight_length]
      omega
    have hne : stripParticle w ≠ w := by
      intro he
      rw [he] at hlen
      omega
    constructor
    · constructor
      · intro he
        exact absurd he hne
      · intro hall
        exact absurd ⟨hpred.1, by omega⟩ (hall p hmem)
    · intro q hq
      cases hq
      exact hstrip

/-- Concrete instantiation of `c7_particle_strip`: `서울에서` is stripped to
`서울` via the particle `에서`, and `코드`, which ends with no particle, is
kept unchanged. -/
theorem c7_particle_strip_witness :
    stripParticle "서울에서" = strDropRight "서울에서" ("에서".length) ∧
      stripParticle "코드" = "코드" :=
  ⟨(c7_particle_strip "서울에서").2 "에서" (by decide),
   (c7_particle_strip "코드").1.mpr (by decide)⟩

end SkillAct
